import Mathlib

set_option maxHeartbeats 1000000

/-!
Shallow embedding of the address-space subsystem implemented in
`os/src/mm/memory_set.rs` (the `MemorySet`/`MapArea` implementation of a
small RISC-V teaching kernel).  Page tables, the physical frame allocator
and the kernel configuration constants are external collaborators of that
file; they are modelled from the specification's description of their
interface.  All machine integers are modelled as `Nat`; `usize` wrap-around
is made explicit (`wsub`) exactly where the source can underflow.
-/

/-- Modelled from the spec: the page size from the kernel configuration
(`config.rs` is not among the provided sources); one page is 4096 bytes. -/
def PAGE_SIZE : Nat := 4096

/-- The modulus of the 64-bit `usize` arithmetic of the target. -/
def USIZE_MOD : Nat := 2 ^ 64

/-- Modelled from the spec: the fixed top-of-address-space virtual address of
the trampoline page (`config.rs`), `usize::MAX - PAGE_SIZE + 1`. -/
def TRAMPOLINE : Nat := USIZE_MOD - PAGE_SIZE

/-- Modelled from the spec: the virtual address of the trap-context page,
one page below the trampoline (`config.rs`). -/
def TRAP_CONTEXT_BASE : Nat := TRAMPOLINE - PAGE_SIZE

/-- Modelled from the spec: the fixed kernel-stack size (`config.rs`). -/
def KERNEL_STACK_SIZE : Nat := 4096 * 2

/-- Modelled from the spec: the fixed user-stack size (`config.rs`). -/
def USER_STACK_SIZE : Nat := 4096 * 2

/-- Wrapping 64-bit subtraction: `usize` release-mode semantics of `a - b`. -/
def wsub (a b : Nat) : Nat := (a % USIZE_MOD + USIZE_MOD - b % USIZE_MOD) % USIZE_MOD

/-- A page-table entry as the source observes it through `translate`:
a physical page number and the `PTEFlags` bits
(`V = 1, R = 2, W = 4, X = 8, U = 16`). -/
structure PTE where
  ppn : Nat
  flags : Nat
deriving DecidableEq

/-- Modelled from the spec: the external page table, consumed only through
`map(vpn, ppn, flags)`, `unmap(vpn)` and `translate(vpn) -> entry-or-absent`.
Its set of valid entries is a partial map from virtual page number to entry;
`map` writes the entry "with permission bits plus always-set valid bit". -/
structure PageTable where
  entries : Nat → Option PTE

def PageTable.new : PageTable := ⟨fun _ => none⟩

def PageTable.map (pt : PageTable) (vpn ppn flags : Nat) : PageTable :=
  ⟨fun v => if v = vpn then some ⟨ppn, flags ||| 1⟩ else pt.entries v⟩

def PageTable.unmap (pt : PageTable) (vpn : Nat) : PageTable :=
  ⟨fun v => if v = vpn then none else pt.entries v⟩

def PageTable.translate (pt : PageTable) (vpn : Nat) : Option PTE :=
  pt.entries vpn

/-- Modelled from the spec: the state behind the external frame allocator and
physical memory.  `next` is the first physical page number still free,
`limit` the end of the allocatable pool (allocation fails when `next`
reaches `limit`), and `mem ppn off` the byte at offset `off` of physical
page `ppn`. -/
structure Mach where
  next : Nat
  limit : Nat
  mem : Nat → Nat → Nat

/-- Modelled from the spec: `allocate() -> frameHandle|exhausted`; a fresh
frame owns one zeroed physical page. -/
def frame_alloc (m : Mach) : Option (Nat × Mach) :=
  if m.next < m.limit then
    some (m.next, ⟨m.next + 1, m.limit, fun p o => if p = m.next then 0 else m.mem p o⟩)
  else none

/-- `MapType`: identical or framed mapping policy. -/
inductive MapType where
  | Identical
  | Framed
deriving DecidableEq

/-- `VirtAddr::floor`: the page number containing a virtual address. -/
def vaFloor (va : Nat) : Nat := va / PAGE_SIZE

/-- `VirtAddr::ceil`: the first page number at or above a virtual address. -/
def vaCeil (va : Nat) : Nat := (va + PAGE_SIZE - 1) / PAGE_SIZE

/-- `MapArea`: a contiguous virtual-page range `[vpn_start, vpn_end)`, the
frames it owns (`data_frames`, populated only under `Framed`), its mapping
policy and its permission bits (`MapPermission`: `R = 2, W = 4, X = 8,
U = 16`, the same bit positions as `PTEFlags`). -/
structure MapArea where
  vpn_start : Nat
  vpn_end : Nat
  data_frames : Nat → Option Nat
  map_type : MapType
  map_perm : Nat

/-- `MapArea::new`: floors the start and ceils the end to page boundaries;
no page mapped yet. -/
def MapArea.new (start_va end_va : Nat) (mt : MapType) (perm : Nat) : MapArea :=
  ⟨vaFloor start_va, vaCeil end_va, fun _ => none, mt, perm⟩

/-- `MapArea::map_one`: `Identical` maps a page to the equal physical page;
`Framed` allocates a fresh frame (`unwrap` on exhaustion is fatal: `none`),
records ownership, and maps to it.  The entry gets the permission bits, the
page table adding the valid bit. -/
def MapArea.map_one (ma : MapArea) (pt : PageTable) (mach : Mach) (vpn : Nat) :
    Option (MapArea × PageTable × Mach) :=
  match ma.map_type with
  | MapType.Identical => some (ma, pt.map vpn vpn ma.map_perm, mach)
  | MapType.Framed =>
    match frame_alloc mach with
    | none => none
    | some (ppn, mach') =>
      some ({ ma with data_frames := fun v => if v = vpn then some ppn else ma.data_frames v },
            pt.map vpn ppn ma.map_perm, mach')

/-- `MapArea::unmap_one`: under `Framed` drops the owned frame, then removes
the page-table entry. -/
def MapArea.unmap_one (ma : MapArea) (pt : PageTable) (vpn : Nat) : MapArea × PageTable :=
  (if ma.map_type = MapType.Framed then
     { ma with data_frames := fun v => if v = vpn then none else ma.data_frames v }
   else ma,
   pt.unmap vpn)

/-- The ascending list of `n` page numbers starting at `s` (the iteration
order of `VPNRange`). -/
def vpnListGo : Nat → Nat → List Nat
  | 0, _ => []
  | n + 1, s => s :: vpnListGo n (s + 1)

/-- The ascending page numbers of the half-open range `[s, e)`. -/
def vpnList (s e : Nat) : List Nat := vpnListGo (e - s) s

/-- The `for vpn in vpn_range` loop of `MapArea::map` / `append_to`. -/
def mapLoop : List Nat → MapArea → PageTable → Mach → Option (MapArea × PageTable × Mach)
  | [], ma, pt, mach => some (ma, pt, mach)
  | v :: rest, ma, pt, mach =>
    match ma.map_one pt mach v with
    | none => none
    | some (ma', pt', mach') => mapLoop rest ma' pt' mach'

/-- `MapArea::map`: maps every page of the range in ascending order. -/
def MapArea.map (ma : MapArea) (pt : PageTable) (mach : Mach) :
    Option (MapArea × PageTable × Mach) :=
  mapLoop (vpnList ma.vpn_start ma.vpn_end) ma pt mach

/-- The `for vpn in VPNRange::new(..)` loop of `MapArea::unmap` / `shrink_to`. -/
def unmapLoop : List Nat → MapArea → PageTable → MapArea × PageTable
  | [], ma, pt => (ma, pt)
  | v :: rest, ma, pt =>
    let r := ma.unmap_one pt v
    unmapLoop rest r.1 r.2

/-- `MapArea::shrink_to`: unmaps every page of `[new_end, vpn_end)` and
shortens the range to `[vpn_start, new_end)`. -/
def MapArea.shrink_to (ma : MapArea) (pt : PageTable) (new_end : Nat) : MapArea × PageTable :=
  let r := unmapLoop (vpnList new_end ma.vpn_end) ma pt
  ({ r.1 with vpn_end := new_end }, r.2)

/-- `MapArea::append_to`: maps every page of `[vpn_end, new_end)` exactly as
`map` does and extends the range to `[vpn_start, new_end)`. -/
def MapArea.append_to (ma : MapArea) (pt : PageTable) (mach : Mach) (new_end : Nat) :
    Option (MapArea × PageTable × Mach) :=
  match mapLoop (vpnList ma.vpn_end new_end) ma pt mach with
  | none => none
  | some (ma', pt', mach') => some ({ ma' with vpn_end := new_end }, pt', mach')

/-- The copy loop of `MapArea::copy_data`: at each iteration the source slice
`data[start .. min(len, start + PAGE_SIZE))` is written at offset 0 of the
physical page currently translating the page `cur` (`translate(..).unwrap()`:
`none` models the panic on an unmapped page); then `start += PAGE_SIZE`,
stopping once `start >= len`. -/
def copyGo : Nat → Nat → Nat → PageTable → Mach → List Nat → Option Mach
  | 0, _, _, _, _, _ => none
  | fuel + 1, start, cur, pt, mach, data =>
    let len := data.length
    let src := (data.drop start).take (min len (start + PAGE_SIZE) - start)
    match pt.translate cur with
    | none => none
    | some pte =>
      let mach' : Mach :=
        ⟨mach.next, mach.limit,
         fun p o => if p = pte.ppn ∧ o < src.length then src.getD o 0 else mach.mem p o⟩
      if len ≤ start + PAGE_SIZE then some mach'
      else copyGo fuel (start + PAGE_SIZE) (cur + 1) pt mach' data

/-- `MapArea::copy_data`: asserts the `Framed` policy (`none` otherwise) and
runs the copy loop from the first page of the range.  The fuel
`len / PAGE_SIZE + 1` covers every iteration the loop can make. -/
def MapArea.copy_data (ma : MapArea) (pt : PageTable) (mach : Mach) (data : List Nat) :
    Option Mach :=
  if ma.map_type = MapType.Framed then
    copyGo (data.length / PAGE_SIZE + 1) 0 ma.vpn_start pt mach data
  else none

/-- `MemorySet`: one page table, the ordered list of `MapArea`s, and the
separate raw-mmap frame map (`mmap_frames : vpn -> owned frame`). -/
structure MemorySet where
  page_table : PageTable
  areas : List MapArea
  mmap_frames : Nat → Option Nat

/-- `MemorySet::new_bare`. -/
def MemorySet.new_bare : MemorySet := ⟨PageTable.new, [], fun _ => none⟩

/-- `MemorySet::translate`: delegates to the page table. -/
def MemorySet.translate (ms : MemorySet) (vpn : Nat) : Option PTE :=
  ms.page_table.translate vpn

/-- `MemorySet::push`: maps the area, optionally copies data into it, and
appends it to the area list. -/
def MemorySet.push (ms : MemorySet) (mach : Mach) (ma : MapArea) (data : Option (List Nat)) :
    Option (MemorySet × Mach) :=
  match ma.map ms.page_table mach with
  | none => none
  | some (ma', pt', mach') =>
    match data with
    | none => some (⟨pt', ms.areas ++ [ma'], ms.mmap_frames⟩, mach')
    | some d =>
      match ma'.copy_data pt' mach' d with
      | none => none
      | some mach'' => some (⟨pt', ms.areas ++ [ma'], ms.mmap_frames⟩, mach'')

/-- `MemorySet::insert_framed_area`: pushes a new data-less `Framed` area. -/
def MemorySet.insert_framed_area (ms : MemorySet) (mach : Mach)
    (start_va end_va perm : Nat) : Option (MemorySet × Mach) :=
  ms.push mach (MapArea.new start_va end_va MapType.Framed perm) none

/-- Modelled from the spec: the physical address of the trampoline code
(the linker symbol `strampoline`, external to the sources). -/
def strampoline : Nat := 0x80210000

/-- `MemorySet::map_trampoline`: maps the fixed trampoline virtual page to
the physical page of the trampoline code, readable and executable
(`R | X = 10`, the page table adding the valid bit). -/
def MemorySet.map_trampoline (ms : MemorySet) : MemorySet :=
  { ms with page_table :=
      ms.page_table.map (TRAMPOLINE / PAGE_SIZE) (strampoline / PAGE_SIZE) 10 }

/-- The `iter_mut().find(..)` scan of `MemorySet::shrink_to`: the first area
whose range starts exactly at `start` is shrunk in place; `none` when no
area matches. -/
def shrinkAreas (start new_end : Nat) :
    List MapArea → PageTable → Option (List MapArea × PageTable)
  | [], _ => none
  | a :: rest, pt =>
    if a.vpn_start = start then
      let r := a.shrink_to pt new_end
      some (r.1 :: rest, r.2)
    else
      match shrinkAreas start new_end rest pt with
      | none => none
      | some (rest', pt') => some (a :: rest', pt')

/-- `MemorySet::shrink_to`: `false` (no mutation) when no area starts at the
page containing `start_va`, otherwise shrinks that area and returns `true`. -/
def MemorySet.shrink_to (ms : MemorySet) (start_va new_end_va : Nat) : Bool × MemorySet :=
  match shrinkAreas (vaFloor start_va) (vaCeil new_end_va) ms.areas ms.page_table with
  | none => (false, ms)
  | some (areas', pt') => (true, ⟨pt', areas', ms.mmap_frames⟩)

/-- The `iter_mut().find(..)` scan of `MemorySet::append_to`: outer `none`
models the fatal allocation failure inside `append_to`; `some none` means no
area starts at `start`. -/
def appendAreas (start new_end : Nat) :
    List MapArea → PageTable → Mach → Option (Option (List MapArea × PageTable × Mach))
  | [], _, _ => some none
  | a :: rest, pt, mach =>
    if a.vpn_start = start then
      match a.append_to pt mach new_end with
      | none => none
      | some (a', pt', mach') => some (some (a' :: rest, pt', mach'))
    else
      match appendAreas start new_end rest pt mach with
      | none => none
      | some none => some none
      | some (some (rest', pt', mach')) => some (some (a :: rest', pt', mach'))

/-- `MemorySet::append_to`: `false` (no mutation) when no area starts at the
page containing `start_va`, otherwise grows that area and returns `true`. -/
def MemorySet.append_to (ms : MemorySet) (mach : Mach) (start_va new_end_va : Nat) :
    Option (Bool × MemorySet × Mach) :=
  match appendAreas (vaFloor start_va) (vaCeil new_end_va) ms.areas ms.page_table mach with
  | none => none
  | some none => some (false, ms, mach)
  | some (some (areas', pt', mach')) => some (true, ⟨pt', areas', ms.mmap_frames⟩, mach')

/-- The `PTEFlags` value `MemorySet::mmap` derives from `port`: bit 0 of
`port` turns on `R`, bit 1 `W`, bit 2 `X`; `U` and `V` are always added. -/
def mmapFlags (port : Nat) : Nat :=
  (if port &&& 1 ≠ 0 then 2 else 0) |||
  (if port &&& 2 ≠ 0 then 4 else 0) |||
  (if port &&& 4 ≠ 0 then 8 else 0) ||| 16 ||| 1

/-- The `while vpn != end_vpn` loop of `MemorySet::mmap`, with explicit fuel
(`none` = the loop has not terminated within `fuel` guard tests).  Each
iteration: a page with a valid translation aborts with `-1`; otherwise a
frame is allocated (exhaustion aborts with `-1`), the page mapped with the
derived flags and the frame recorded in the raw-mmap frame map. -/
def mmapGo : Nat → Nat → Nat → Nat → PageTable → (Nat → Option Nat) → Mach →
    Option (Int × PageTable × (Nat → Option Nat) × Mach)
  | 0, _, _, _, _, _, _ => none
  | fuel + 1, flags, vpn, end_vpn, pt, mf, mach =>
    if vpn = end_vpn then some (0, pt, mf, mach)
    else
      match pt.translate vpn with
      | some _ => some (-1, pt, mf, mach)
      | none =>
        match frame_alloc mach with
        | none => some (-1, pt, mf, mach)
        | some (ppn, mach') =>
          mmapGo fuel flags (vpn + 1) end_vpn (pt.map vpn ppn flags)
            (fun v => if v = vpn then some ppn else mf v) mach'

/-- `MemorySet::mmap`: runs the loop with fuel `end_vpn - start_vpn + 1`,
enough for every terminating run with `start_vpn <= end_vpn`. -/
def MemorySet.mmap (ms : MemorySet) (mach : Mach) (start_vpn end_vpn port : Nat) :
    Option (Int × MemorySet × Mach) :=
  match mmapGo (end_vpn - start_vpn + 1) (mmapFlags port) start_vpn end_vpn
      ms.page_table ms.mmap_frames mach with
  | none => none
  | some (r, pt', mf', mach') => some (r, ⟨pt', ms.areas, mf'⟩, mach')

/-- The `while vpn != end_vpn` loop of `MemorySet::munmap`, with explicit
fuel.  Each iteration: a page without a valid translation aborts with `-1`;
otherwise the entry is removed and the raw-mmap frame dropped. -/
def munmapGo : Nat → Nat → Nat → PageTable → (Nat → Option Nat) →
    Option (Int × PageTable × (Nat → Option Nat))
  | 0, _, _, _, _ => none
  | fuel + 1, vpn, end_vpn, pt, mf =>
    if vpn = end_vpn then some (0, pt, mf)
    else
      match pt.translate vpn with
      | none => some (-1, pt, mf)
      | some _ =>
        munmapGo fuel (vpn + 1) end_vpn (pt.unmap vpn)
          (fun v => if v = vpn then none else mf v)

/-- `MemorySet::munmap`: runs the loop with fuel `end_vpn - start_vpn + 1`. -/
def MemorySet.munmap (ms : MemorySet) (start_vpn end_vpn : Nat) :
    Option (Int × MemorySet) :=
  match munmapGo (end_vpn - start_vpn + 1) start_vpn end_vpn ms.page_table ms.mmap_frames with
  | none => none
  | some (r, pt', mf') => some (r, ⟨pt', ms.areas, mf'⟩)

/-- Modelled from the spec: one program header as the image parser yields it:
type (loadable or not), virtual address, in-memory size, on-file size, file
offset, and the readable/writable/executable flags. -/
structure ProgHeader where
  isLoad : Bool
  vaddr : Nat
  mem_size : Nat
  file_size : Nat
  offset : Nat
  fr : Bool
  fw : Bool
  fx : Bool

/-- Modelled from the spec: an executable image as `from_elf` consumes it:
the four magic bytes, the program headers, the raw file bytes, and the
declared entry point. -/
structure ElfInput where
  magic : List Nat
  phs : List ProgHeader
  input : List Nat
  entry_point : Nat

/-- The permission set `from_elf` derives from a loadable header: always
user-accessible (`U = 16`), plus `R/W/X` from the header flags. -/
def phPerm (ph : ProgHeader) : Nat :=
  16 ||| (if ph.fr then 2 else 0) ||| (if ph.fw then 4 else 0) ||| (if ph.fx then 8 else 0)

/-- The end page number of a loadable header's area,
`ceil(vaddr + mem_size)`. -/
def phEndVpn (ph : ProgHeader) : Nat := vaCeil (ph.vaddr + ph.mem_size)

/-- The program-header loop of `from_elf`: every loadable header becomes a
`Framed` area pushed with its on-file byte span; `maxEnd` is overwritten by
each loadable header's end page (the slice `input[offset..offset+file_size]`
panics out of bounds: `none`). -/
def loadLoop : List ProgHeader → List Nat → MemorySet → Mach → Nat →
    Option (MemorySet × Mach × Nat)
  | [], _, ms, mach, maxEnd => some (ms, mach, maxEnd)
  | ph :: rest, input, ms, mach, maxEnd =>
    if ph.isLoad then
      let ma := MapArea.new ph.vaddr (ph.vaddr + ph.mem_size) MapType.Framed (phPerm ph)
      if ph.offset + ph.file_size ≤ input.length then
        match ms.push mach ma (some ((input.drop ph.offset).take ph.file_size)) with
        | none => none
        | some (ms', mach') => loadLoop rest input ms' mach' ma.vpn_end
      else none
    else loadLoop rest input ms mach maxEnd

/-- `MemorySet::from_elf`: maps the trampoline, checks the magic (fatal if
absent), loads every loadable header, then places the user stack one guard
page above the final `max_end_vpn` (`R|W|U = 22`), an empty area at the
stack top for `sbrk`, and the trap-context page (`R|W = 6`) below the
trampoline; returns the address space, the user stack top and the entry
point. -/
def from_elf (e : ElfInput) (mach : Mach) : Option (MemorySet × Nat × Nat × Mach) :=
  if e.magic = [0x7f, 0x45, 0x4c, 0x46] then
    (loadLoop e.phs e.input (MemorySet.new_bare.map_trampoline) mach 0).bind fun s₁ =>
      (s₁.1.push s₁.2.1 (MapArea.new (s₁.2.2 * PAGE_SIZE + PAGE_SIZE)
          (s₁.2.2 * PAGE_SIZE + PAGE_SIZE + USER_STACK_SIZE) MapType.Framed 22) none).bind
        fun s₂ =>
        (s₂.1.push s₂.2 (MapArea.new (s₁.2.2 * PAGE_SIZE + PAGE_SIZE + USER_STACK_SIZE)
            (s₁.2.2 * PAGE_SIZE + PAGE_SIZE + USER_STACK_SIZE) MapType.Framed 22) none).bind
          fun s₃ =>
          (s₃.1.push s₃.2 (MapArea.new TRAP_CONTEXT_BASE TRAMPOLINE MapType.Framed 6)
              none).bind fun s₄ =>
            some (s₄.1, s₁.2.2 * PAGE_SIZE + PAGE_SIZE + USER_STACK_SIZE, e.entry_point, s₄.2)
  else none

/-- `kernel_stack_position`: `(bottom, top)` of task `app_id`'s kernel stack,
computed with wrapping `usize` subtraction as the source does. -/
def kernel_stack_position (app_id : Nat) : Nat × Nat :=
  let top := wsub TRAMPOLINE (app_id * (KERNEL_STACK_SIZE + PAGE_SIZE))
  (wsub top KERNEL_STACK_SIZE, top)

/-- Following the spec's words only (for comparison with the code): "the
highest ending page number across all loadable headers". -/
def specHighestLoadEnd (phs : List ProgHeader) : Nat :=
  phs.foldl (fun acc ph => if ph.isLoad then max acc (phEndVpn ph) else acc) 0

/-- The end page number of the last loadable header, starting from `acc`:
the value the source's `max_end_vpn` actually holds after the loop. -/
def lastLoadEndFrom (phs : List ProgHeader) (acc : Nat) : Nat :=
  match phs with
  | [] => acc
  | ph :: rest => lastLoadEndFrom rest (if ph.isLoad then phEndVpn ph else acc)

/-- The end page number of the last loadable header (0 when none). -/
def lastLoadEnd (phs : List ProgHeader) : Nat := lastLoadEndFrom phs 0

/-- The number of pages the `copy_data` loop touches for `len` source
bytes: one iteration happens even for empty data, then one per started
page. -/
def touchedPages (len : Nat) : Nat := max 1 ((len + PAGE_SIZE - 1) / PAGE_SIZE)

/-- An example machine state with one hundred free frames and zeroed
memory. -/
def exMach : Mach := ⟨0, 100, fun _ _ => 0⟩

/-- An example machine state with an exhausted frame allocator. -/
def exMach0 : Mach := ⟨0, 0, fun _ _ => 0⟩

/-- An example loadable program header covering pages `[10, 12)`. -/
def exPh1 : ProgHeader := ⟨true, 10 * 4096, 2 * 4096, 0, 0, true, false, true⟩

/-- An example loadable program header covering pages `[2, 4)`: it comes
after `exPh1` although it lies at lower addresses. -/
def exPh2 : ProgHeader := ⟨true, 2 * 4096, 2 * 4096, 0, 0, true, true, false⟩

/-- An example image whose loadable headers are not sorted by address: the
last one ends at page 4 while the highest ends at page 12. -/
def exImg : ElfInput := ⟨[0x7f, 0x45, 0x4c, 0x46], [exPh1, exPh2], [], 0x1000⟩

/-! ## Basic lemmas about the page-table model and page ranges -/

theorem PageTable.translate_map (pt : PageTable) (vpn ppn flags v : Nat) :
    (pt.map vpn ppn flags).translate v =
      if v = vpn then some ⟨ppn, flags ||| 1⟩ else pt.translate v := rfl

theorem PageTable.translate_unmap (pt : PageTable) (vpn v : Nat) :
    (pt.unmap vpn).translate v = if v = vpn then none else pt.translate v := rfl

theorem mem_vpnListGo : ∀ n s v, v ∈ vpnListGo n s ↔ s ≤ v ∧ v < s + n := by
  intro n
  induction n with
  | zero => intro s v; simp [vpnListGo]
  | succ m ih =>
    intro s v
    simp only [vpnListGo, List.mem_cons, ih (s + 1) v]
    omega

/-- Full characterization of `mapLoop` over an ascending range for a
`Framed` area: page `s + j` is mapped to the freshly allocated frame
`mach.next + j` with the area's permission plus the valid bit, ownership is
recorded, and nothing outside the range is touched. -/
theorem mapLoop_framed : ∀ n s ma pt mach ma' pt' mach',
    ma.map_type = MapType.Framed →
    mapLoop (vpnListGo n s) ma pt mach = some (ma', pt', mach') →
    mach'.next = mach.next + n ∧ mach'.limit = mach.limit ∧
    ma'.map_type = ma.map_type ∧ ma'.map_perm = ma.map_perm ∧
    ma'.vpn_start = ma.vpn_start ∧ ma'.vpn_end = ma.vpn_end ∧
    (∀ j, j < n →
      pt'.translate (s + j) = some ⟨mach.next + j, ma.map_perm ||| 1⟩ ∧
      ma'.data_frames (s + j) = some (mach.next + j)) ∧
    (∀ v, v < s ∨ s + n ≤ v →
      pt'.translate v = pt.translate v ∧ ma'.data_frames v = ma.data_frames v) := by
  intro n
  induction n with
  | zero =>
    intro s ma pt mach ma' pt' mach' hty h
    simp only [vpnListGo, mapLoop, Option.some.injEq, Prod.mk.injEq] at h
    obtain ⟨h1, h2, h3⟩ := h
    subst h1; subst h2; subst h3
    refine ⟨by omega, rfl, rfl, rfl, rfl, rfl, ?_, ?_⟩
    · intro j hj; omega
    · intro v _; exact ⟨rfl, rfl⟩
  | succ m ih =>
    intro s ma pt mach ma' pt' mach' hty h
    obtain ⟨s0, e0, df, mt, pm⟩ := ma
    simp only at hty
    subst hty
    simp only [vpnListGo, mapLoop, MapArea.map_one] at h
    by_cases hlt : mach.next < mach.limit
    · rw [show frame_alloc mach = some (mach.next,
          ⟨mach.next + 1, mach.limit, fun p o => if p = mach.next then 0 else mach.mem p o⟩)
        from by simp [frame_alloc, hlt]] at h
      simp only at h
      have := ih (s + 1)
        ⟨s0, e0, fun v => if v = s then some mach.next else df v, MapType.Framed, pm⟩
        (pt.map s mach.next pm)
        ⟨mach.next + 1, mach.limit, fun p o => if p = mach.next then 0 else mach.mem p o⟩
        ma' pt' mach' rfl h
      obtain ⟨c1, c2, c3, c4, c5, c6, c7, c8⟩ := this
      refine ⟨by simp at c1; omega, by simpa using c2, c3, c4, c5, c6, ?_, ?_⟩
      · intro j hj
        rcases Nat.eq_zero_or_pos j with hj0 | hjpos
        · subst hj0
          have hs : s + 0 = s := by omega
          rw [hs]
          obtain ⟨t1, t2⟩ := c8 s (by omega)
          constructor
          · rw [t1, PageTable.translate_map]
            simp
          · rw [t2]
            simp
        · obtain ⟨j', rfl⟩ : ∃ j', j = j' + 1 := ⟨j - 1, by omega⟩
          obtain ⟨t1, t2⟩ := c7 j' (by omega)
          have e1 : s + (j' + 1) = s + 1 + j' := by omega
          rw [e1]
          simp only at t1 t2
          have e2 : mach.next + (j' + 1) = mach.next + 1 + j' := by omega
          rw [e2]
          exact ⟨t1, t2⟩
      · intro v hv
        obtain ⟨t1, t2⟩ := c8 v (by omega)
        have hvs : ¬ v = s := by omega
        constructor
        · rw [t1, PageTable.translate_map]
          simp [hvs]
        · rw [t2]
          simp [hvs]
    · rw [show frame_alloc mach = none from by simp [frame_alloc, hlt]] at h
      simp at h

/-- Characterization of `mapLoop` for an `Identical` area: each page of the
range maps to the equal physical page number; area and allocator are
untouched. -/
theorem mapLoop_ident : ∀ n s ma pt mach ma' pt' mach',
    ma.map_type = MapType.Identical →
    mapLoop (vpnListGo n s) ma pt mach = some (ma', pt', mach') →
    ma' = ma ∧ mach' = mach ∧
    (∀ j, j < n → pt'.translate (s + j) = some ⟨s + j, ma.map_perm ||| 1⟩) ∧
    (∀ v, v < s ∨ s + n ≤ v → pt'.translate v = pt.translate v) := by
  intro n
  induction n with
  | zero =>
    intro s ma pt mach ma' pt' mach' hty h
    simp only [vpnListGo, mapLoop, Option.some.injEq, Prod.mk.injEq] at h
    obtain ⟨h1, h2, h3⟩ := h
    subst h1; subst h2; subst h3
    refine ⟨rfl, rfl, by omega, fun v _ => rfl⟩
  | succ m ih =>
    intro s ma pt mach ma' pt' mach' hty h
    obtain ⟨s0, e0, df, mt, pm⟩ := ma
    simp only at hty
    subst hty
    simp only [vpnListGo, mapLoop, MapArea.map_one] at h
    obtain ⟨c1, c2, c3, c4⟩ := ih (s + 1) ⟨s0, e0, df, MapType.Identical, pm⟩
      (pt.map s s pm) mach ma' pt' mach' rfl h
    refine ⟨c1, c2, ?_, ?_⟩
    · intro j hj
      rcases Nat.eq_zero_or_pos j with hj0 | hjpos
      · subst hj0
        have hs : s + 0 = s := by omega
        rw [hs, c4 s (by omega), PageTable.translate_map]
        simp
      · obtain ⟨j', rfl⟩ : ∃ j', j = j' + 1 := ⟨j - 1, by omega⟩
        have e1 : s + (j' + 1) = s + 1 + j' := by omega
        rw [e1]
        exact c3 j' (by omega)
    · intro v hv
      have hvs : ¬ v = s := by omega
      rw [c4 v (by omega), PageTable.translate_map]
      simp [hvs]

/-- Characterization of `unmapLoop` over an ascending range: every page of
the range loses its translation, `Framed` ownership of those pages is
dropped, and nothing outside the range is touched.  The area's other fields
are preserved. -/
theorem unmapLoop_spec : ∀ n s ma pt,
    ((unmapLoop (vpnListGo n s) ma pt).1.map_type = ma.map_type ∧
     (unmapLoop (vpnListGo n s) ma pt).1.map_perm = ma.map_perm ∧
     (unmapLoop (vpnListGo n s) ma pt).1.vpn_start = ma.vpn_start ∧
     (unmapLoop (vpnListGo n s) ma pt).1.vpn_end = ma.vpn_end) ∧
    (∀ v, s ≤ v → v < s + n →
      (unmapLoop (vpnListGo n s) ma pt).2.translate v = none ∧
      (unmapLoop (vpnListGo n s) ma pt).1.data_frames v =
        (if ma.map_type = MapType.Framed then none else ma.data_frames v)) ∧
    (∀ v, v < s ∨ s + n ≤ v →
      (unmapLoop (vpnListGo n s) ma pt).2.translate v = pt.translate v ∧
      (unmapLoop (vpnListGo n s) ma pt).1.data_frames v = ma.data_frames v) := by
  intro n
  induction n with
  | zero =>
    intro s ma pt
    refine ⟨⟨rfl, rfl, rfl, rfl⟩, ?_, fun v _ => ⟨rfl, rfl⟩⟩
    intro v h1 h2; omega
  | succ m ih =>
    intro s ma pt
    obtain ⟨s0, e0, df, mt, pm⟩ := ma
    rcases mt with _ | _
    · simp only [vpnListGo, unmapLoop, MapArea.unmap_one, reduceCtorEq, if_neg,
        reduceIte]
      obtain ⟨⟨f1, f2, f3, f4⟩, hin, hout⟩ := ih (s + 1) ⟨s0, e0, df, MapType.Identical, pm⟩
        (pt.unmap s)
      refine ⟨⟨f1, f2, f3, f4⟩, ?_, ?_⟩
      · intro v h1 h2
        by_cases hvs : v = s
        · subst hvs
          obtain ⟨t1, t2⟩ := hout v (by omega)
          refine ⟨?_, by simpa using t2⟩
          rw [t1, PageTable.translate_unmap]
          simp
        · obtain ⟨t1, t2⟩ := hin v (by omega) (by omega)
          exact ⟨t1, by simpa using t2⟩
      · intro v hv
        obtain ⟨t1, t2⟩ := hout v (by omega)
        have hvs : ¬ v = s := by omega
        refine ⟨?_, t2⟩
        rw [t1, PageTable.translate_unmap]
        simp [hvs]
    · simp only [vpnListGo, unmapLoop, MapArea.unmap_one, reduceIte]
      obtain ⟨⟨f1, f2, f3, f4⟩, hin, hout⟩ := ih (s + 1)
        ⟨s0, e0, fun v => if v = s then none else df v, MapType.Framed, pm⟩
        (pt.unmap s)
      refine ⟨⟨f1, f2, f3, f4⟩, ?_, ?_⟩
      · intro v h1 h2
        by_cases hvs : v = s
        · subst hvs
          obtain ⟨t1, t2⟩ := hout v (by omega)
          refine ⟨?_, ?_⟩
          · rw [t1, PageTable.translate_unmap]
            simp
          · simp only at t2
            rw [t2]
            simp
        · obtain ⟨t1, t2⟩ := hin v (by omega) (by omega)
          refine ⟨t1, ?_⟩
          simp only at t2
          rw [t2]
          simp [hvs]
      · intro v hv
        obtain ⟨t1, t2⟩ := hout v (by omega)
        have hvs : ¬ v = s := by omega
        refine ⟨?_, ?_⟩
        · rw [t1, PageTable.translate_unmap]
          simp [hvs]
        · simp only at t2
          rw [t2]
          simp [hvs]

/-- Full characterization of the `mmap` loop on an ordered range: some
prefix of `k` pages, all previously untranslated, is freshly mapped (page
`a + j` to frame `mach.next + j`, recorded in the raw-mmap frame map);
nothing outside that prefix changes; the result is `0` exactly when the
prefix is the whole range, and `-1` when the walk stopped at a page that was
already translated or at allocator exhaustion. -/
theorem mmapGo_spec : ∀ n flags a pt mf mach,
    ∃ r pt' mf' mach',
      mmapGo (n + 1) flags a (a + n) pt mf mach = some (r, pt', mf', mach') ∧
      ∃ k, k ≤ n ∧
        (∀ j, j < k → pt.translate (a + j) = none) ∧
        (∀ j, j < k →
          pt'.translate (a + j) = some ⟨mach.next + j, flags ||| 1⟩ ∧
          mf' (a + j) = some (mach.next + j)) ∧
        (∀ v, v < a ∨ a + k ≤ v → pt'.translate v = pt.translate v ∧ mf' v = mf v) ∧
        mach'.next = mach.next + k ∧ mach'.limit = mach.limit ∧
        ((r = 0 ∧ k = n) ∨
         (r = -1 ∧ k < n ∧
           (pt.translate (a + k) ≠ none ∨
            (pt.translate (a + k) = none ∧ mach.limit ≤ mach.next + k)))) := by
  intro n
  induction n with
  | zero =>
    intro flags a pt mf mach
    refine ⟨0, pt, mf, mach, ?_, 0, ?_⟩
    · simp [mmapGo]
    · refine ⟨by omega, by omega, by omega, fun v _ => ⟨rfl, rfl⟩, by omega, rfl, ?_⟩
      exact Or.inl ⟨rfl, rfl⟩
  | succ m ih =>
    intro flags a pt mf mach
    have hne : ¬ a = a + (m + 1) := by omega
    rcases h1 : pt.translate a with _ | e
    · by_cases hlt : mach.next < mach.limit
      · have hfa : frame_alloc mach = some (mach.next,
            ⟨mach.next + 1, mach.limit, fun p o => if p = mach.next then 0 else mach.mem p o⟩) := by
          simp [frame_alloc, hlt]
        obtain ⟨r, pt', mf', mach', heq, k, hk, hpre, hpost, hout, hnext, hlim, hdis⟩ :=
          ih flags (a + 1) (pt.map a mach.next flags)
            (fun v => if v = a then some mach.next else mf v)
            ⟨mach.next + 1, mach.limit, fun p o => if p = mach.next then 0 else mach.mem p o⟩
        refine ⟨r, pt', mf', mach', ?_, k + 1, ?_⟩
        · simp only [mmapGo, if_neg hne, PageTable.translate] at *
          rw [show pt.entries a = none from h1, hfa]
          have hEnd : a + (m + 1) = a + 1 + m := by omega
          rw [hEnd]
          exact heq
        · refine ⟨by omega, ?_, ?_, ?_, by simp at hnext; omega, by simpa using hlim, ?_⟩
          · intro j hj
            rcases Nat.eq_zero_or_pos j with hj0 | hjpos
            · subst hj0; simpa using h1
            · obtain ⟨j', rfl⟩ : ∃ j', j = j' + 1 := ⟨j - 1, by omega⟩
              have := hpre j' (by omega)
              rw [PageTable.translate_map] at this
              have hne2 : ¬ a + 1 + j' = a := by omega
              rw [if_neg hne2] at this
              have e1 : a + (j' + 1) = a + 1 + j' := by omega
              rw [e1]
              exact this
          · intro j hj
            rcases Nat.eq_zero_or_pos j with hj0 | hjpos
            · subst hj0
              simp only [Nat.add_zero]
              obtain ⟨t1, t2⟩ := hout a (by omega)
              constructor
              · rw [t1, PageTable.translate_map]
                simp
              · rw [t2]
                simp
            · obtain ⟨j', rfl⟩ : ∃ j', j = j' + 1 := ⟨j - 1, by omega⟩
              obtain ⟨t1, t2⟩ := hpost j' (by omega)
              have e1 : a + (j' + 1) = a + 1 + j' := by omega
              have e2 : mach.next + (j' + 1) = mach.next + 1 + j' := by omega
              rw [e1, e2]
              simp only at t1 t2
              exact ⟨t1, t2⟩
          · intro v hv
            obtain ⟨t1, t2⟩ := hout v (by omega)
            have hvs : ¬ v = a := by omega
            constructor
            · rw [t1, PageTable.translate_map, if_neg hvs]
            · rw [t2, if_neg hvs]
          · rcases hdis with ⟨hr, hkm⟩ | ⟨hr, hkm, hcond⟩
            · exact Or.inl ⟨hr, by omega⟩
            · refine Or.inr ⟨hr, by omega, ?_⟩
              have e1 : a + (k + 1) = a + 1 + k := by omega
              rw [e1]
              rcases hcond with hc | ⟨hc, he⟩
              · rw [PageTable.translate_map] at hc
                have hne2 : ¬ a + 1 + k = a := by omega
                rw [if_neg hne2] at hc
                exact Or.inl hc
              · rw [PageTable.translate_map] at hc
                have hne2 : ¬ a + 1 + k = a := by omega
                rw [if_neg hne2] at hc
                refine Or.inr ⟨hc, ?_⟩
                simp only at he
                omega
      · have hfa : frame_alloc mach = none := by simp [frame_alloc, hlt]
        refine ⟨-1, pt, mf, mach, ?_, 0, ?_⟩
        · simp only [mmapGo, if_neg hne, PageTable.translate] at *
          rw [show pt.entries a = none from h1, hfa]
        · refine ⟨by omega, by omega, by omega, fun v _ => ⟨rfl, rfl⟩, by omega, rfl, ?_⟩
          refine Or.inr ⟨rfl, by omega, Or.inr ⟨by simpa using h1, by omega⟩⟩
    · refine ⟨-1, pt, mf, mach, ?_, 0, ?_⟩
      · simp only [mmapGo, if_neg hne, PageTable.translate] at *
        rw [show pt.entries a = some e from h1]
      · refine ⟨by omega, by omega, by omega, fun v _ => ⟨rfl, rfl⟩, by omega, rfl, ?_⟩
        refine Or.inr ⟨rfl, by omega, Or.inl ?_⟩
        simp [h1]

/-- Full characterization of the `munmap` loop on an ordered range: some
prefix of `k` pages, all previously translated, loses its translations and
raw-mmap frames; nothing outside that prefix changes; the result is `0`
exactly when the prefix is the whole range, and `-1` when the walk stopped
at a page with no valid translation. -/
theorem munmapGo_spec : ∀ n a pt mf,
    ∃ r pt' mf',
      munmapGo (n + 1) a (a + n) pt mf = some (r, pt', mf') ∧
      ∃ k, k ≤ n ∧
        (∀ j, j < k → pt.translate (a + j) ≠ none) ∧
        (∀ j, j < k → pt'.translate (a + j) = none ∧ mf' (a + j) = none) ∧
        (∀ v, v < a ∨ a + k ≤ v → pt'.translate v = pt.translate v ∧ mf' v = mf v) ∧
        ((r = 0 ∧ k = n) ∨ (r = -1 ∧ k < n ∧ pt.translate (a + k) = none)) := by
  intro n
  induction n with
  | zero =>
    intro a pt mf
    refine ⟨0, pt, mf, by simp [munmapGo], 0, by omega, by omega, by omega,
      fun v _ => ⟨rfl, rfl⟩, Or.inl ⟨rfl, rfl⟩⟩
  | succ m ih =>
    intro a pt mf
    have hne : ¬ a = a + (m + 1) := by omega
    rcases h1 : pt.translate a with _ | e
    · refine ⟨-1, pt, mf, ?_, 0, by omega, by omega, by omega,
        fun v _ => ⟨rfl, rfl⟩, Or.inr ⟨rfl, by omega, by simpa using h1⟩⟩
      simp only [munmapGo, if_neg hne, PageTable.translate] at *
      rw [show pt.entries a = none from h1]
    · obtain ⟨r, pt', mf', heq, k, hk, hpre, hpost, hout, hdis⟩ :=
        ih (a + 1) (pt.unmap a) (fun v => if v = a then none else mf v)
      refine ⟨r, pt', mf', ?_, k + 1, by omega, ?_, ?_, ?_, ?_⟩
      · simp only [munmapGo, if_neg hne, PageTable.translate] at *
        rw [show pt.entries a = some e from h1]
        have hEnd : a + (m + 1) = a + 1 + m := by omega
        rw [hEnd]
        exact heq
      · intro j hj
        rcases Nat.eq_zero_or_pos j with hj0 | hjpos
        · subst hj0
          simp only [Nat.add_zero, h1]
          exact fun hc => Option.noConfusion hc
        · obtain ⟨j', rfl⟩ : ∃ j', j = j' + 1 := ⟨j - 1, by omega⟩
          have := hpre j' (by omega)
          rw [PageTable.translate_unmap] at this
          have hne2 : ¬ a + 1 + j' = a := by omega
          rw [if_neg hne2] at this
          have e1 : a + (j' + 1) = a + 1 + j' := by omega
          rw [e1]
          exact this
      · intro j hj
        rcases Nat.eq_zero_or_pos j with hj0 | hjpos
        · subst hj0
          simp only [Nat.add_zero]
          obtain ⟨t1, t2⟩ := hout a (by omega)
          constructor
          · rw [t1, PageTable.translate_unmap]
            simp
          · rw [t2]
            simp
        · obtain ⟨j', rfl⟩ : ∃ j', j = j' + 1 := ⟨j - 1, by omega⟩
          obtain ⟨t1, t2⟩ := hpost j' (by omega)
          have e1 : a + (j' + 1) = a + 1 + j' := by omega
          rw [e1]
          exact ⟨t1, t2⟩
      · intro v hv
        obtain ⟨t1, t2⟩ := hout v (by omega)
        have hvs : ¬ v = a := by omega
        constructor
        · rw [t1, PageTable.translate_unmap, if_neg hvs]
        · rw [t2, if_neg hvs]
      · rcases hdis with ⟨hr, hkm⟩ | ⟨hr, hkm, hc⟩
        · exact Or.inl ⟨hr, by omega⟩
        · refine Or.inr ⟨hr, by omega, ?_⟩
          rw [PageTable.translate_unmap] at hc
          have hne2 : ¬ a + 1 + k = a := by omega
          rw [if_neg hne2] at hc
          have e1 : a + (k + 1) = a + 1 + k := by omega
          rw [e1]
          exact hc

/-- One-step unfolding of the copy loop when the current page translates. -/
theorem copyGo_succ (f start cur : Nat) (pt : PageTable) (mach : Mach) (data : List Nat)
    (pte : PTE) (h : pt.translate cur = some pte) :
    copyGo (f + 1) start cur pt mach data =
      if data.length ≤ start + PAGE_SIZE then
        some ⟨mach.next, mach.limit, fun p o =>
          if p = pte.ppn ∧
              o < ((data.drop start).take (min data.length (start + PAGE_SIZE) - start)).length
          then ((data.drop start).take (min data.length (start + PAGE_SIZE) - start)).getD o 0
          else mach.mem p o⟩
      else copyGo f (start + PAGE_SIZE) (cur + 1) pt
        ⟨mach.next, mach.limit, fun p o =>
          if p = pte.ppn ∧
              o < ((data.drop start).take (min data.length (start + PAGE_SIZE) - start)).length
          then ((data.drop start).take (min data.length (start + PAGE_SIZE) - start)).getD o 0
          else mach.mem p o⟩ data := by
  simp only [copyGo, h]

/-- Full characterization of the `copy_data` loop from page index `q` on:
byte `o` of the frame backing touched page `j` ends up equal to
`data[j * PAGE_SIZE + o]` when that index is in range (and `o` within the
page) and keeps its old value otherwise; all other physical pages are
untouched. -/
theorem copyGo_spec : ∀ fuel q cur pt mach (data : List Nat) (ppnOf : Nat → Nat),
    q < touchedPages data.length →
    touchedPages data.length - q ≤ fuel →
    (∀ j, q ≤ j → j < touchedPages data.length →
      (pt.translate (cur + (j - q))).map PTE.ppn = some (ppnOf j)) →
    (∀ i j, q ≤ i → i < touchedPages data.length → q ≤ j →
      j < touchedPages data.length → i ≠ j → ppnOf i ≠ ppnOf j) →
    ∃ mach', copyGo fuel (q * PAGE_SIZE) cur pt mach data = some mach' ∧
      mach'.next = mach.next ∧ mach'.limit = mach.limit ∧
      (∀ j, q ≤ j → j < touchedPages data.length → ∀ o,
        mach'.mem (ppnOf j) o =
          if o < PAGE_SIZE ∧ j * PAGE_SIZE + o < data.length
          then data.getD (j * PAGE_SIZE + o) 0
          else mach.mem (ppnOf j) o) ∧
      (∀ p, (∀ j, q ≤ j → j < touchedPages data.length → p ≠ ppnOf j) →
        ∀ o, mach'.mem p o = mach.mem p o) := by
  intro fuel
  induction fuel with
  | zero =>
    intro q cur pt mach data ppnOf hq hfuel hmap hdis
    exfalso; omega
  | succ f ih =>
    intro q cur pt mach data ppnOf hq hfuel hmap hdis
    obtain ⟨pte, hpte, hppn⟩ : ∃ pte, pt.translate cur = some pte ∧ pte.ppn = ppnOf q := by
      have h := hmap q (Nat.le_refl q) hq
      simp only [Nat.sub_self, Nat.add_zero] at h
      rcases hx : pt.translate cur with _ | pte
      · rw [hx] at h
        simp at h
      · refine ⟨pte, rfl, ?_⟩
        rw [hx] at h
        simpa using h
    have hqL : q * PAGE_SIZE ≤ data.length := by
      simp only [touchedPages, PAGE_SIZE] at hq
      simp only [PAGE_SIZE]
      omega
    have hW : ((data.drop (q * PAGE_SIZE)).take
        (min data.length (q * PAGE_SIZE + PAGE_SIZE) - q * PAGE_SIZE)).length =
        min data.length (q * PAGE_SIZE + PAGE_SIZE) - q * PAGE_SIZE := by
      simp only [List.length_take, List.length_drop]
      omega
    set memF : Nat → Nat → Nat := fun p o =>
      if p = pte.ppn ∧ o < ((data.drop (q * PAGE_SIZE)).take
          (min data.length (q * PAGE_SIZE + PAGE_SIZE) - q * PAGE_SIZE)).length
      then ((data.drop (q * PAGE_SIZE)).take
          (min data.length (q * PAGE_SIZE + PAGE_SIZE) - q * PAGE_SIZE)).getD o 0
      else mach.mem p o with hmemF
    have hmemF1 : ∀ p o, memF p o =
        if p = ppnOf q ∧ o < PAGE_SIZE ∧ q * PAGE_SIZE + o < data.length
        then data.getD (q * PAGE_SIZE + o) 0
        else mach.mem p o := by
      intro p o
      simp only [hmemF, hW, hppn]
      by_cases hp : p = ppnOf q
      · by_cases ho : o < PAGE_SIZE ∧ q * PAGE_SIZE + o < data.length
        · obtain ⟨ho1, ho2⟩ := ho
          have hob : o < min data.length (q * PAGE_SIZE + PAGE_SIZE) - q * PAGE_SIZE := by
            omega
          rw [if_pos ⟨hp, hob⟩, if_pos ⟨hp, ho1, ho2⟩]
          rw [List.getD_eq_getElem?_getD, List.getD_eq_getElem?_getD,
            List.getElem?_take, if_pos hob, List.getElem?_drop]
        · rw [if_neg (fun hc => ho ⟨by omega, by omega⟩), if_neg (fun hc => ho hc.2)]
      · rw [if_neg (fun hc => hp hc.1), if_neg (fun hc => hp hc.1)]
    set M₁ : Mach := ⟨mach.next, mach.limit, memF⟩ with hM1
    have hM1mem : ∀ p o, M₁.mem p o = memF p o := fun _ _ => rfl
    by_cases hstop : data.length ≤ q * PAGE_SIZE + PAGE_SIZE
    · have hTq : touchedPages data.length = q + 1 := by
        simp only [touchedPages, PAGE_SIZE] at hq hstop ⊢
        omega
      refine ⟨M₁, ?_, rfl, rfl, ?_, ?_⟩
      · rw [copyGo_succ f (q * PAGE_SIZE) cur pt mach data pte hpte, if_pos hstop,
          ← hmemF, ← hM1]
      · intro j hj1 hj2 o
        have hjq : j = q := by omega
        subst hjq
        rw [hM1mem, hmemF1]
        simp
      · intro p hp o
        rw [hM1mem, hmemF1, if_neg (fun hc => (hp q (Nat.le_refl q) hq) hc.1)]
    · have hq1 : q + 1 < touchedPages data.length := by
        simp only [touchedPages, PAGE_SIZE] at hq hstop ⊢
        omega
      obtain ⟨mach', heq, hnext, hlim, hin, hout⟩ :=
        ih (q + 1) (cur + 1) pt M₁ data ppnOf hq1 (by omega)
          (fun j hj1 hj2 => by
            have h := hmap j (by omega) hj2
            have e : cur + (j - q) = cur + 1 + (j - (q + 1)) := by omega
            rw [e] at h
            exact h)
          (fun i j h1 h2 h3 h4 h5 => hdis i j (by omega) h2 (by omega) h4 h5)
      refine ⟨mach', ?_, by rw [hnext], by rw [hlim], ?_, ?_⟩
      · rw [copyGo_succ f (q * PAGE_SIZE) cur pt mach data pte hpte, if_neg hstop,
          ← hmemF, ← hM1]
        have e : q * PAGE_SIZE + PAGE_SIZE = (q + 1) * PAGE_SIZE := by ring
        rw [e]
        exact heq
      · intro j hj1 hj2 o
        by_cases hjq : j = q
        · subst hjq
          rw [hout (ppnOf j) (fun j' h1 h2 => hdis j j' hj1 hj2 (by omega) h2 (by omega)) o,
            hM1mem, hmemF1]
          by_cases hc : o < PAGE_SIZE ∧ j * PAGE_SIZE + o < data.length
          · rw [if_pos hc, if_pos ⟨rfl, hc.1, hc.2⟩]
          · rw [if_neg hc, if_neg (fun hcc => hc hcc.2)]
        · have hj1' : q + 1 ≤ j := by omega
          rw [hin j hj1' hj2 o]
          by_cases hc : o < PAGE_SIZE ∧ j * PAGE_SIZE + o < data.length
          · rw [if_pos hc, if_pos hc]
          · rw [if_neg hc, if_neg hc, hM1mem, hmemF1,
              if_neg (fun hcc => (hdis j q hj1 hj2 (Nat.le_refl q) hq hjq) hcc.1)]
      · intro p hp o
        rw [hout p (fun j h1 h2 => hp j (by omega) h2) o, hM1mem, hmemF1,
          if_neg (fun hcc => (hp q (Nat.le_refl q) hq) hcc.1)]

theorem vaFloor_mul (x : Nat) : vaFloor (x * PAGE_SIZE) = x := by
  simp only [vaFloor, PAGE_SIZE]
  omega

theorem vaCeil_mul (x : Nat) : vaCeil (x * PAGE_SIZE) = x := by
  simp only [vaCeil, PAGE_SIZE]
  omega

/-- What a successful `push` of a `Framed` area does to the address space:
the pages of the area's range become mapped to consecutive fresh frames with
the area's permission plus the valid bit, translations outside the range
and the raw-mmap frame map are untouched, and the mapped copy of the area is
appended to the area list. -/
theorem push_framed (ms : MemorySet) (mach : Mach) (ma : MapArea) (d : Option (List Nat))
    (ms' : MemorySet) (mach' : Mach)
    (hty : ma.map_type = MapType.Framed)
    (h : ms.push mach ma d = some (ms', mach')) :
    (∀ j, j < ma.vpn_end - ma.vpn_start →
      ms'.page_table.translate (ma.vpn_start + j) = some ⟨mach.next + j, ma.map_perm ||| 1⟩) ∧
    (∀ v, v < ma.vpn_start ∨ ma.vpn_end ≤ v →
      ms'.page_table.translate v = ms.page_table.translate v) ∧
    ms'.mmap_frames = ms.mmap_frames ∧
    (∃ ma', ms'.areas = ms.areas ++ [ma'] ∧ ma'.map_type = ma.map_type ∧
      ma'.map_perm = ma.map_perm ∧ ma'.vpn_start = ma.vpn_start ∧
      ma'.vpn_end = ma.vpn_end) := by
  rcases hmap : ma.map ms.page_table mach with _ | ⟨ma₁, pt₁, mach₁⟩
  · simp only [MemorySet.push, hmap] at h
    exact Option.noConfusion h
  · have hspec := mapLoop_framed (ma.vpn_end - ma.vpn_start) ma.vpn_start ma
      ms.page_table mach ma₁ pt₁ mach₁ hty hmap
    obtain ⟨c1, c2, c3, c4, c5, c6, c7, c8⟩ := hspec
    have hpt : ms'.page_table = pt₁ ∧ ms'.mmap_frames = ms.mmap_frames ∧
        ms'.areas = ms.areas ++ [ma₁] := by
      rcases d with _ | dd
      · simp only [MemorySet.push, hmap, Option.some.injEq, Prod.mk.injEq] at h
        rw [← h.1]
        exact ⟨rfl, rfl, rfl⟩
      · rcases hc : ma₁.copy_data pt₁ mach₁ dd with _ | mach₂
        · simp only [MemorySet.push, hmap, hc] at h
          exact Option.noConfusion h
        · simp only [MemorySet.push, hmap, hc, Option.some.injEq, Prod.mk.injEq] at h
          rw [← h.1]
          exact ⟨rfl, rfl, rfl⟩
    obtain ⟨hp1, hp2, hp3⟩ := hpt
    refine ⟨?_, ?_, hp2, ma₁, hp3, c3, c4, c5, c6⟩
    · intro j hj
      rw [hp1]
      exact (c7 j hj).1
    · intro v hv
      rw [hp1]
      exact (c8 v (by omega)).1

/-- The `max_end_vpn` the header loop returns is the end page of the last
loadable header (or the initial accumulator when none is loadable). -/
theorem loadLoop_maxEnd : ∀ phs input ms mach acc ms' mach' m',
    loadLoop phs input ms mach acc = some (ms', mach', m') →
    m' = lastLoadEndFrom phs acc := by
  intro phs
  induction phs with
  | nil =>
    intro input ms mach acc ms' mach' m' h
    simp only [loadLoop, Option.some.injEq, Prod.mk.injEq] at h
    rw [lastLoadEndFrom, ← h.2.2]
  | cons ph rest ih =>
    intro input ms mach acc ms' mach' m' h
    rw [loadLoop] at h
    by_cases hl : ph.isLoad
    · rw [if_pos hl] at h
      by_cases hb : ph.offset + ph.file_size ≤ input.length
      · rw [if_pos hb] at h
        rcases hp : ms.push mach
            (MapArea.new ph.vaddr (ph.vaddr + ph.mem_size) MapType.Framed (phPerm ph))
            (some ((input.drop ph.offset).take ph.file_size)) with _ | ⟨ms₁, mach₁⟩
        · rw [hp] at h; simp at h
        · rw [hp] at h
          simp only [lastLoadEndFrom, hl, if_pos]
          exact ih input ms₁ mach₁ _ ms' mach' m' h
      · rw [if_neg hb] at h; simp at h
    · rw [if_neg hl] at h
      simp only [lastLoadEndFrom, hl]
      simp only [Bool.false_eq_true, if_false]
      exact ih input ms mach acc ms' mach' m' h

/-- The header loop does not change the translation of a page outside every
loadable header's range, nor the raw-mmap frame map, and only appends to the
area list. -/
theorem loadLoop_untouched : ∀ phs input ms mach acc ms' mach' m' v,
    loadLoop phs input ms mach acc = some (ms', mach', m') →
    (∀ ph, ph ∈ phs → ph.isLoad = true → v < vaFloor ph.vaddr ∨ phEndVpn ph ≤ v) →
    ms'.page_table.translate v = ms.page_table.translate v ∧
    ms'.mmap_frames = ms.mmap_frames := by
  intro phs
  induction phs with
  | nil =>
    intro input ms mach acc ms' mach' m' v h _
    simp only [loadLoop, Option.some.injEq, Prod.mk.injEq] at h
    rw [← h.1]
    exact ⟨rfl, rfl⟩
  | cons ph rest ih =>
    intro input ms mach acc ms' mach' m' v h hg
    rw [loadLoop] at h
    by_cases hl : ph.isLoad
    · rw [if_pos hl] at h
      by_cases hb : ph.offset + ph.file_size ≤ input.length
      · rw [if_pos hb] at h
        rcases hp : ms.push mach
            (MapArea.new ph.vaddr (ph.vaddr + ph.mem_size) MapType.Framed (phPerm ph))
            (some ((input.drop ph.offset).take ph.file_size)) with _ | ⟨ms₁, mach₁⟩
        · rw [hp] at h; simp at h
        · rw [hp] at h
          obtain ⟨_, huntouched, hmf, _⟩ :=
            push_framed ms mach _ _ ms₁ mach₁ rfl hp
          obtain ⟨t1, t2⟩ := ih input ms₁ mach₁ _ ms' mach' m' v h
            (fun ph' hm hl' => hg ph' (List.mem_cons_of_mem ph hm) hl')
          refine ⟨?_, by rw [t2, hmf]⟩
          rw [t1, huntouched v ?_]
          have := hg ph (List.mem_cons_self ph rest) hl
          simp only [MapArea.new]
          exact this
      · rw [if_neg hb] at h; simp at h
    · rw [if_neg hl] at h
      exact ih input ms mach acc ms' mach' m' v h
        (fun ph' hm hl' => hg ph' (List.mem_cons_of_mem ph hm) hl')

/-! ## Claim C2: kernel_stack_position -/

theorem wsub_eq (a b : Nat) (hb : b ≤ a) (ha : a < USIZE_MOD) : wsub a b = a - b := by
  have hM : USIZE_MOD = 18446744073709551616 := by norm_num [USIZE_MOD]
  simp only [wsub, hM] at *
  omega

theorem TRAMPOLINE_eq : TRAMPOLINE = 18446744073709547520 := by
  norm_num [TRAMPOLINE, USIZE_MOD, PAGE_SIZE]

/-- Claim C2, counterexample: for task index 0 the computed stack top is the
trampoline address itself, so no guard page separates the topmost stack from
the trampoline; and for the (astronomically large, but type-correct) task
index 3002399751580330 the wrapping `usize` arithmetic returns a pair that
is not a `KERNEL_STACK_SIZE`-byte range at all. -/
theorem kernel_stack_position_cex :
    (kernel_stack_position 0).2 = TRAMPOLINE ∧
    ¬ ((kernel_stack_position 0).2 + PAGE_SIZE ≤ TRAMPOLINE) ∧
    (kernel_stack_position 3002399751580330).1 = TRAMPOLINE ∧
    (kernel_stack_position 3002399751580330).2 = 4096 ∧
    ¬ ((kernel_stack_position 3002399751580330).1 + KERNEL_STACK_SIZE
        = (kernel_stack_position 3002399751580330).2) := by
  refine ⟨by decide, by decide, by decide, by decide, by decide⟩

/-- Claim C2 (corrected): for every task index small enough that stacks `i`
and `i + 1` fit below the trampoline without `usize` underflow,
`kernel_stack_position i` returns a range of exactly `KERNEL_STACK_SIZE`
bytes lying at or below the trampoline, with one full guard page between
consecutive task indices; but the topmost stack (index 0) ends exactly at
the trampoline base, with no guard page in between. -/
theorem kernel_stack_position_spec (i : Nat)
    (h : (i + 1) * (KERNEL_STACK_SIZE + PAGE_SIZE) ≤ TRAMPOLINE) :
    (kernel_stack_position i).2 = TRAMPOLINE - i * (KERNEL_STACK_SIZE + PAGE_SIZE) ∧
    (kernel_stack_position i).1 + KERNEL_STACK_SIZE = (kernel_stack_position i).2 ∧
    (kernel_stack_position i).2 ≤ TRAMPOLINE ∧
    (kernel_stack_position (i + 1)).2 + PAGE_SIZE = (kernel_stack_position i).1 ∧
    (kernel_stack_position 0).2 = TRAMPOLINE := by
  have hM : USIZE_MOD = 18446744073709551616 := by norm_num [USIZE_MOD]
  have hKP : KERNEL_STACK_SIZE = 8192 ∧ PAGE_SIZE = 4096 := by
    norm_num [KERNEL_STACK_SIZE, PAGE_SIZE]
  have hk1 : (i + 1) * (KERNEL_STACK_SIZE + PAGE_SIZE)
      = i * (KERNEL_STACK_SIZE + PAGE_SIZE) + (KERNEL_STACK_SIZE + PAGE_SIZE) :=
    Nat.succ_mul _ _
  have hkT : i * (KERNEL_STACK_SIZE + PAGE_SIZE) + KERNEL_STACK_SIZE + PAGE_SIZE
      ≤ TRAMPOLINE := by omega
  have hTM : TRAMPOLINE < USIZE_MOD := by
    rw [TRAMPOLINE_eq, hM]
    norm_num
  have htop : wsub TRAMPOLINE (i * (KERNEL_STACK_SIZE + PAGE_SIZE))
      = TRAMPOLINE - i * (KERNEL_STACK_SIZE + PAGE_SIZE) :=
    wsub_eq _ _ (by omega) hTM
  have htop1 : wsub TRAMPOLINE ((i + 1) * (KERNEL_STACK_SIZE + PAGE_SIZE))
      = TRAMPOLINE - (i + 1) * (KERNEL_STACK_SIZE + PAGE_SIZE) :=
    wsub_eq _ _ (by omega) hTM
  have hbot : wsub (TRAMPOLINE - i * (KERNEL_STACK_SIZE + PAGE_SIZE)) KERNEL_STACK_SIZE
      = TRAMPOLINE - i * (KERNEL_STACK_SIZE + PAGE_SIZE) - KERNEL_STACK_SIZE :=
    wsub_eq _ _ (by omega) (by omega)
  have htop0 : wsub TRAMPOLINE (0 * (KERNEL_STACK_SIZE + PAGE_SIZE)) = TRAMPOLINE := by
    rw [Nat.zero_mul, wsub_eq _ _ (Nat.zero_le _) hTM, Nat.sub_zero]
  refine ⟨?_, ?_, ?_, ?_, ?_⟩
  · show wsub TRAMPOLINE (i * (KERNEL_STACK_SIZE + PAGE_SIZE)) = _
    exact htop
  · show wsub (wsub TRAMPOLINE (i * (KERNEL_STACK_SIZE + PAGE_SIZE))) KERNEL_STACK_SIZE
        + KERNEL_STACK_SIZE = wsub TRAMPOLINE (i * (KERNEL_STACK_SIZE + PAGE_SIZE))
    rw [htop, hbot]
    omega
  · show wsub TRAMPOLINE (i * (KERNEL_STACK_SIZE + PAGE_SIZE)) ≤ TRAMPOLINE
    rw [htop]
    omega
  · show wsub TRAMPOLINE ((i + 1) * (KERNEL_STACK_SIZE + PAGE_SIZE)) + PAGE_SIZE
        = wsub (wsub TRAMPOLINE (i * (KERNEL_STACK_SIZE + PAGE_SIZE))) KERNEL_STACK_SIZE
    rw [htop1, htop, hbot]
    omega
  · show wsub TRAMPOLINE (0 * (KERNEL_STACK_SIZE + PAGE_SIZE)) = TRAMPOLINE
    exact htop0

/-- Witness for `kernel_stack_position_spec` at task index 1. -/
theorem kernel_stack_position_spec_witness :
    (1 + 1) * (KERNEL_STACK_SIZE + PAGE_SIZE) ≤ TRAMPOLINE ∧
    ((kernel_stack_position 1).2 = TRAMPOLINE - 1 * (KERNEL_STACK_SIZE + PAGE_SIZE) ∧
     (kernel_stack_position 1).1 + KERNEL_STACK_SIZE = (kernel_stack_position 1).2 ∧
     (kernel_stack_position 1).2 ≤ TRAMPOLINE ∧
     (kernel_stack_position (1 + 1)).2 + PAGE_SIZE = (kernel_stack_position 1).1 ∧
     (kernel_stack_position 0).2 = TRAMPOLINE) :=
  ⟨by decide, kernel_stack_position_spec 1 (by decide)⟩

/-! ## Claim C9: shrink_to / append_to lookup miss -/

theorem shrinkAreas_miss (start new_end : Nat) : ∀ l (pt : PageTable),
    (∀ a, a ∈ l → a.vpn_start ≠ start) → shrinkAreas start new_end l pt = none := by
  intro l
  induction l with
  | nil => intro pt _; rfl
  | cons a rest ih =>
    intro pt hm
    rw [shrinkAreas, if_neg (hm a (List.mem_cons_self a rest)),
      ih pt (fun a' ha' => hm a' (List.mem_cons_of_mem a ha'))]

theorem appendAreas_miss (start new_end : Nat) : ∀ l (pt : PageTable) (mach : Mach),
    (∀ a, a ∈ l → a.vpn_start ≠ start) →
    appendAreas start new_end l pt mach = some none := by
  intro l
  induction l with
  | nil => intro pt mach _; rfl
  | cons a rest ih =>
    intro pt mach hm
    rw [appendAreas, if_neg (hm a (List.mem_cons_self a rest)),
      ih pt mach (fun a' ha' => hm a' (List.mem_cons_of_mem a ha'))]

/-- Claim C9 (confirmed): when no area's range starts exactly at the page
containing `start_va`, both `shrink_to` and `append_to` report failure
(`false`) and return the address space, the machine state, the page table,
the areas and the raw-mmap entries completely unchanged. -/
theorem ms_resize_miss (ms : MemorySet) (mach : Mach) (start_va new_end_va : Nat)
    (hmiss : ∀ a, a ∈ ms.areas → a.vpn_start ≠ vaFloor start_va) :
    ms.shrink_to start_va new_end_va = (false, ms) ∧
    ms.append_to mach start_va new_end_va = some (false, ms, mach) := by
  constructor
  · rw [MemorySet.shrink_to, shrinkAreas_miss _ _ ms.areas ms.page_table hmiss]
  · rw [MemorySet.append_to, appendAreas_miss _ _ ms.areas ms.page_table mach hmiss]

/-- Witness for `ms_resize_miss` on the empty address space. -/
theorem ms_resize_miss_witness :
    (∀ a, a ∈ MemorySet.new_bare.areas → a.vpn_start ≠ vaFloor 4096) ∧
    (MemorySet.new_bare.shrink_to 4096 8192 = (false, MemorySet.new_bare) ∧
     MemorySet.new_bare.append_to exMach 4096 8192 = some (false, MemorySet.new_bare, exMach)) :=
  ⟨fun a ha => absurd ha (by simp [MemorySet.new_bare]),
   ms_resize_miss MemorySet.new_bare exMach 4096 8192
     (fun a ha => absurd ha (by simp [MemorySet.new_bare]))⟩

/-! ## Claim C6: insert_framed_area -/

/-- Claim C6 (confirmed): after a successful `insert_framed_area` over the
page-aligned range `[s * PAGE_SIZE, e * PAGE_SIZE)` with permission bits
`perm`, every page of `[s, e)` translates to a present entry whose flag bits
are exactly the permission bits plus the valid bit, and the backing frames
are consecutive fresh frames, hence pairwise distinct. -/
theorem insert_framed_area_spec (ms : MemorySet) (mach : Mach) (s e perm : Nat)
    (hsucc : (ms.insert_framed_area mach (s * PAGE_SIZE) (e * PAGE_SIZE) perm).isSome = true) :
    ∀ ms' mach',
      ms.insert_framed_area mach (s * PAGE_SIZE) (e * PAGE_SIZE) perm = some (ms', mach') →
      (∀ v, s ≤ v → v < e →
        ms'.translate v = some ⟨mach.next + (v - s), perm ||| 1⟩) ∧
      (∀ v w, s ≤ v → v < e → s ≤ w → w < e → v ≠ w →
        (ms'.translate v).map PTE.ppn ≠ (ms'.translate w).map PTE.ppn) := by
  intro ms' mach' h
  have hfr := push_framed ms mach (MapArea.new (s * PAGE_SIZE) (e * PAGE_SIZE)
      MapType.Framed perm) none ms' mach' rfl h
  obtain ⟨hmapd, _, _, _⟩ := hfr
  simp only [MapArea.new, vaFloor_mul, vaCeil_mul] at hmapd
  have hv : ∀ v, s ≤ v → v < e →
      ms'.translate v = some ⟨mach.next + (v - s), perm ||| 1⟩ := by
    intro v hv1 hv2
    have := hmapd (v - s) (by omega)
    rw [show s + (v - s) = v from by omega] at this
    exact this
  refine ⟨hv, ?_⟩
  intro v w hv1 hv2 hw1 hw2 hvw
  rw [hv v hv1 hv2, hv w hw1 hw2]
  simp only [Option.map_some', ne_eq, Option.some.injEq, PTE.mk.injEq]
  intro hcc
  omega

/-- Witness for `insert_framed_area_spec` on the empty address space, over
pages `[1, 3)` with permission `R|W = 6`. -/
theorem insert_framed_area_spec_witness :
    (MemorySet.new_bare.insert_framed_area exMach (1 * PAGE_SIZE) (3 * PAGE_SIZE) 6).isSome
      = true ∧
    (∀ ms' mach',
      MemorySet.new_bare.insert_framed_area exMach (1 * PAGE_SIZE) (3 * PAGE_SIZE) 6
        = some (ms', mach') →
      (∀ v, 1 ≤ v → v < 3 →
        ms'.translate v = some ⟨exMach.next + (v - 1), 6 ||| 1⟩) ∧
      (∀ v w, 1 ≤ v → v < 3 → 1 ≤ w → w < 3 → v ≠ w →
        (ms'.translate v).map PTE.ppn ≠ (ms'.translate w).map PTE.ppn)) :=
  ⟨rfl, insert_framed_area_spec MemorySet.new_bare exMach 1 3 6 rfl⟩

/-! ## Claims C3, C4, C5, C10: mmap / munmap -/

theorem or_one_idem (y : Nat) : (y ||| 1) ||| 1 = y ||| 1 := by
  rw [Nat.or_assoc, show (1 ||| 1 : Nat) = 1 from by decide]

theorem mmapFlags_or_one (port : Nat) : mmapFlags port ||| 1 = mmapFlags port := by
  rw [show mmapFlags port = ((if port &&& 1 ≠ 0 then 2 else 0) |||
    (if port &&& 2 ≠ 0 then 4 else 0) ||| (if port &&& 4 ≠ 0 then 8 else 0) ||| 16) ||| 1
    from rfl]
  exact or_one_idem _

theorem mmapFlags_bits (port : Nat) :
    (mmapFlags port).testBit 0 = true ∧
    (mmapFlags port).testBit 1 = port.testBit 0 ∧
    (mmapFlags port).testBit 2 = port.testBit 1 ∧
    (mmapFlags port).testBit 3 = port.testBit 2 ∧
    (mmapFlags port).testBit 4 = true := by
  have e1 : port &&& 1 = (port.testBit 0).toNat * 1 := by
    simpa using Nat.and_two_pow port 0
  have e2 : port &&& 2 = (port.testBit 1).toNat * 2 := by
    simpa using Nat.and_two_pow port 1
  have e4 : port &&& 4 = (port.testBit 2).toNat * 4 := by
    simpa using Nat.and_two_pow port 2
  cases hb0 : port.testBit 0 <;> cases hb1 : port.testBit 1 <;> cases hb2 : port.testBit 2 <;>
    simp only [mmapFlags, e1, e2, e4, hb0, hb1, hb2] <;> decide

/-- Claim C3 (confirmed): on an ordered range, `mmap` derives the entry
flags from `port` (bit 0 to `R`, bit 1 to `W`, bit 2 to `X`, always `U` and
`V`), walks ascending, and either maps the entire range freshly (result 0),
or stops at the first page with a valid prior translation or at allocator
exhaustion (result -1), keeping the pages mapped by the earlier iterations
of the same call in place (no rollback) and recording each mapped frame in
the raw-mmap frame map. -/
theorem mmap_spec (ms : MemorySet) (mach : Mach) (a b port : Nat) (hab : a ≤ b) :
    ∃ r ms' mach', ms.mmap mach a b port = some (r, ms', mach') ∧
      ((mmapFlags port).testBit 1 = port.testBit 0 ∧
       (mmapFlags port).testBit 2 = port.testBit 1 ∧
       (mmapFlags port).testBit 3 = port.testBit 2 ∧
       (mmapFlags port).testBit 4 = true ∧
       (mmapFlags port).testBit 0 = true) ∧
      ms'.areas = ms.areas ∧ mach'.limit = mach.limit ∧
      ∃ k, k ≤ b - a ∧
        (∀ j, j < k → ms.translate (a + j) = none) ∧
        (∀ j, j < k →
          ms'.translate (a + j) = some ⟨mach.next + j, mmapFlags port⟩ ∧
          ms'.mmap_frames (a + j) = some (mach.next + j)) ∧
        (∀ v, v < a ∨ a + k ≤ v →
          ms'.translate v = ms.translate v ∧ ms'.mmap_frames v = ms.mmap_frames v) ∧
        mach'.next = mach.next + k ∧
        ((r = 0 ∧ k = b - a) ∨
         (r = -1 ∧ k < b - a ∧
           (ms.translate (a + k) ≠ none ∨
            (ms.translate (a + k) = none ∧ mach.limit ≤ mach.next + k)))) := by
  obtain ⟨r, pt', mf', mach', heq, k, hk, hpre, hpost, hout, hnext, hlim, hdis⟩ :=
    mmapGo_spec (b - a) (mmapFlags port) a ms.page_table ms.mmap_frames mach
  rw [show a + (b - a) = b from by omega] at heq
  refine ⟨r, ⟨pt', ms.areas, mf'⟩, mach', ?_,
    ⟨(mmapFlags_bits port).2.1, (mmapFlags_bits port).2.2.1, (mmapFlags_bits port).2.2.2.1,
     (mmapFlags_bits port).2.2.2.2, (mmapFlags_bits port).1⟩,
    rfl, hlim, k, hk, hpre, ?_, hout, hnext, hdis⟩
  · rw [MemorySet.mmap, heq]
  · intro j hj
    obtain ⟨t1, t2⟩ := hpost j hj
    rw [mmapFlags_or_one] at t1
    exact ⟨t1, t2⟩

/-- Witness for `mmap_spec`: mapping pages `[0, 2)` with `port = 3` in the
empty address space. -/
theorem mmap_spec_witness :
    (0 : Nat) ≤ 2 ∧
    (∃ r ms' mach', MemorySet.new_bare.mmap exMach 0 2 3 = some (r, ms', mach') ∧
      ((mmapFlags 3).testBit 1 = (3 : Nat).testBit 0 ∧
       (mmapFlags 3).testBit 2 = (3 : Nat).testBit 1 ∧
       (mmapFlags 3).testBit 3 = (3 : Nat).testBit 2 ∧
       (mmapFlags 3).testBit 4 = true ∧
       (mmapFlags 3).testBit 0 = true) ∧
      ms'.areas = MemorySet.new_bare.areas ∧ mach'.limit = exMach.limit ∧
      ∃ k, k ≤ 2 - 0 ∧
        (∀ j, j < k → MemorySet.new_bare.translate (0 + j) = none) ∧
        (∀ j, j < k →
          ms'.translate (0 + j) = some ⟨exMach.next + j, mmapFlags 3⟩ ∧
          ms'.mmap_frames (0 + j) = some (exMach.next + j)) ∧
        (∀ v, v < 0 ∨ 0 + k ≤ v →
          ms'.translate v = MemorySet.new_bare.translate v ∧
          ms'.mmap_frames v = MemorySet.new_bare.mmap_frames v) ∧
        mach'.next = exMach.next + k ∧
        ((r = 0 ∧ k = 2 - 0) ∨
         (r = -1 ∧ k < 2 - 0 ∧
           (MemorySet.new_bare.translate (0 + k) ≠ none ∨
            (MemorySet.new_bare.translate (0 + k) = none ∧
             exMach.limit ≤ exMach.next + k))))) :=
  ⟨by omega, mmap_spec MemorySet.new_bare exMach 0 2 3 (by omega)⟩

/-- Claim C4 (confirmed): on an ordered range, `munmap` walks ascending;
it stops with -1 at the first page without a valid translation, keeping the
pages already unmapped by the same call unmapped (no rollback); otherwise it
removes every page's entry and its raw-mmap frame and returns 0. -/
theorem munmap_spec (ms : MemorySet) (a b : Nat) (hab : a ≤ b) :
    ∃ r ms', ms.munmap a b = some (r, ms') ∧ ms'.areas = ms.areas ∧
      ∃ k, k ≤ b - a ∧
        (∀ j, j < k → ms.translate (a + j) ≠ none) ∧
        (∀ j, j < k → ms'.translate (a + j) = none ∧ ms'.mmap_frames (a + j) = none) ∧
        (∀ v, v < a ∨ a + k ≤ v →
          ms'.translate v = ms.translate v ∧ ms'.mmap_frames v = ms.mmap_frames v) ∧
        ((r = 0 ∧ k = b - a) ∨
         (r = -1 ∧ k < b - a ∧ ms.translate (a + k) = none)) := by
  obtain ⟨r, pt', mf', heq, k, hk, hpre, hpost, hout, hdis⟩ :=
    munmapGo_spec (b - a) a ms.page_table ms.mmap_frames
  rw [show a + (b - a) = b from by omega] at heq
  refine ⟨r, ⟨pt', ms.areas, mf'⟩, ?_, rfl, k, hk, hpre, hpost, hout, hdis⟩
  rw [MemorySet.munmap, heq]

/-- Witness for `munmap_spec` on the empty address space over `[0, 1)`. -/
theorem munmap_spec_witness :
    (0 : Nat) ≤ 1 ∧
    (∃ r ms', MemorySet.new_bare.munmap 0 1 = some (r, ms') ∧
      ms'.areas = MemorySet.new_bare.areas ∧
      ∃ k, k ≤ 1 - 0 ∧
        (∀ j, j < k → MemorySet.new_bare.translate (0 + j) ≠ none) ∧
        (∀ j, j < k → ms'.translate (0 + j) = none ∧ ms'.mmap_frames (0 + j) = none) ∧
        (∀ v, v < 0 ∨ 0 + k ≤ v →
          ms'.translate v = MemorySet.new_bare.translate v ∧
          ms'.mmap_frames v = MemorySet.new_bare.mmap_frames v) ∧
        ((r = 0 ∧ k = 1 - 0) ∨
         (r = -1 ∧ k < 1 - 0 ∧ MemorySet.new_bare.translate (0 + k) = none))) :=
  ⟨by omega, munmap_spec MemorySet.new_bare 0 1 (by omega)⟩

/-- Claim C5, counterexample: with an exhausted frame allocator, `mmap` on
the completely fresh range `[0, 1)` returns -1, not 0, so the round-trip
property fails as stated. -/
theorem mmap_roundtrip_cex :
    ((MemorySet.new_bare.mmap exMach0 0 1 3).map fun r => r.1) = some (-1) ∧
    MemorySet.new_bare.translate 0 = none ∧ (0 : Nat) < 1 :=
  ⟨rfl, rfl, by omega⟩

/-- Claim C5 (corrected): on an ordered range `[a, b)` with no prior valid
translation on any of its pages, and with at least `b - a` free frames,
`mmap` followed by `munmap` returns 0 both times, and afterwards every page
of the range has no translation. -/
theorem mmap_munmap_roundtrip (ms : MemorySet) (mach : Mach) (a b port : Nat)
    (hab : a ≤ b)
    (hfresh : ∀ v, a ≤ v → v < b → ms.translate v = none)
    (hframes : mach.next + (b - a) ≤ mach.limit) :
    ∃ ms₁ mach₁, ms.mmap mach a b port = some (0, ms₁, mach₁) ∧
      ∃ ms₂, ms₁.munmap a b = some (0, ms₂) ∧
        ∀ v, a ≤ v → v < b → ms₂.translate v = none := by
  obtain ⟨r, pt', mf', mach', heq, k, hk, hpre, hpost, hout, hnext, hlim, hdis⟩ :=
    mmapGo_spec (b - a) (mmapFlags port) a ms.page_table ms.mmap_frames mach
  rw [show a + (b - a) = b from by omega] at heq
  have hkall : k = b - a ∧ r = 0 := by
    rcases hdis with ⟨h1, h2⟩ | ⟨h1, h2, h3⟩
    · exact ⟨h2, h1⟩
    · exfalso
      rcases h3 with hc | ⟨hc, he⟩
      · exact hc (hfresh (a + k) (by omega) (by omega))
      · omega
  obtain ⟨hkba, hr0⟩ := hkall
  subst hkba
  subst hr0
  refine ⟨⟨pt', ms.areas, mf'⟩, mach', ?_, ?_⟩
  · rw [MemorySet.mmap, heq]
  · obtain ⟨r₂, pt₂, mf₂, heq₂, k₂, hk₂, hpre₂, hpost₂, hout₂, hdis₂⟩ :=
      munmapGo_spec (b - a) a pt' mf'
    rw [show a + (b - a) = b from by omega] at heq₂
    have hk₂all : k₂ = b - a ∧ r₂ = 0 := by
      rcases hdis₂ with ⟨h1, h2⟩ | ⟨h1, h2, h3⟩
      · exact ⟨h2, h1⟩
      · exfalso
        have := (hpost (b - a - (b - a - k₂)) (by omega)).1
        rw [show a + (b - a - (b - a - k₂)) = a + k₂ from by omega] at this
        rw [h3] at this
        exact Option.noConfusion this
    obtain ⟨hk₂ba, hr₂0⟩ := hk₂all
    subst hk₂ba
    subst hr₂0
    refine ⟨⟨pt₂, ms.areas, mf₂⟩, ?_, ?_⟩
    · show MemorySet.munmap _ a b = _
      rw [MemorySet.munmap]
      simp only
      rw [heq₂]
    · intro v hv1 hv2
      have hvt := (hpost₂ (v - a) (by omega)).1
      rw [show a + (v - a) = v from by omega] at hvt
      exact hvt

/-- Witness for `mmap_munmap_roundtrip` over `[0, 2)` in the empty address
space with one hundred free frames. -/
theorem mmap_munmap_roundtrip_witness :
    (0 : Nat) ≤ 2 ∧ (∀ v, 0 ≤ v → v < 2 → MemorySet.new_bare.translate v = none) ∧
    exMach.next + (2 - 0) ≤ exMach.limit ∧
    (∃ ms₁ mach₁, MemorySet.new_bare.mmap exMach 0 2 3 = some (0, ms₁, mach₁) ∧
      ∃ ms₂, ms₁.munmap 0 2 = some (0, ms₂) ∧
        ∀ v, 0 ≤ v → v < 2 → ms₂.translate v = none) :=
  ⟨by omega, fun v _ _ => rfl, by decide,
   mmap_munmap_roundtrip MemorySet.new_bare exMach 0 2 3 (by omega)
     (fun v _ _ => rfl) (by decide)⟩

theorem mmapGo_gt : ∀ fuel flags a b (pt : PageTable) mf (mach : Mach) r, b < a →
    mmapGo fuel flags a b pt mf mach = some r → r.1 ≠ 0 := by
  intro fuel
  induction fuel with
  | zero =>
    intro flags a b pt mf mach r hba h
    exact Option.noConfusion h
  | succ f ih =>
    intro flags a b pt mf mach r hba h
    rw [mmapGo, if_neg (by omega)] at h
    rcases h1 : pt.translate a with _ | e
    · rw [h1] at h
      rcases h2 : frame_alloc mach with _ | ⟨ppn, mach₁⟩
      · rw [h2] at h
        simp only [Option.some.injEq] at h
        rw [← h]
        simp
      · rw [h2] at h
        exact ih flags (a + 1) b _ _ mach₁ r (by omega) h
    · rw [h1] at h
      simp only [Option.some.injEq] at h
      rw [← h]
      simp

theorem munmapGo_gt : ∀ fuel a b (pt : PageTable) mf r, b < a →
    munmapGo fuel a b pt mf = some r → r.1 ≠ 0 := by
  intro fuel
  induction fuel with
  | zero =>
    intro a b pt mf r hba h
    exact Option.noConfusion h
  | succ f ih =>
    intro a b pt mf r hba h
    rw [munmapGo, if_neg (by omega)] at h
    rcases h1 : pt.translate a with _ | e
    · rw [h1] at h
      simp only [Option.some.injEq] at h
      rw [← h]
      simp
    · rw [h1] at h
      exact ih (a + 1) b _ _ r (by omega) h

/-- Claim C10, counterexample: a run of the `mmap` loop with
`start_vpn > end_vpn` that terminates (with -1, here by allocator
exhaustion on the very first page), and a run of the `munmap` loop with
`start_vpn > end_vpn` that terminates (with -1 at the first unmapped page):
`start_vpn <= end_vpn` is not necessary for termination. -/
theorem mmap_termination_cex :
    (0 : Nat) < 1 ∧
    mmapGo 1 (mmapFlags 3) 1 0 PageTable.new (fun _ => none) exMach0
      = some (-1, PageTable.new, fun _ => none, exMach0) ∧
    munmapGo 1 1 0 PageTable.new (fun _ => none) = some (-1, PageTable.new, fun _ => none) :=
  ⟨by omega, rfl, rfl⟩

/-- Claim C10 (corrected): on an ordered range both loops terminate within
`end_vpn - start_vpn + 1` guard tests, and on an empty range both return 0
without touching the page table or the raw-mmap frame map; but
`start_vpn <= end_vpn` is only necessary for a *successful* (0-returning)
termination — with `start_vpn > end_vpn` the loops can still terminate,
returning -1 on a conflict, an unmapped page, or allocator exhaustion. -/
theorem mmap_munmap_termination :
    (∀ flags a b (pt : PageTable) mf (mach : Mach), a ≤ b →
      (mmapGo (b - a + 1) flags a b pt mf mach).isSome = true) ∧
    (∀ a b (pt : PageTable) mf, a ≤ b → (munmapGo (b - a + 1) a b pt mf).isSome = true) ∧
    (∀ (ms : MemorySet) (mach : Mach) a port, ms.mmap mach a a port = some (0, ms, mach)) ∧
    (∀ (ms : MemorySet) a, ms.munmap a a = some (0, ms)) ∧
    (∀ fuel flags a b (pt : PageTable) mf (mach : Mach) r, b < a →
      mmapGo fuel flags a b pt mf mach = some r → r.1 ≠ 0) ∧
    (∀ fuel a b (pt : PageTable) mf r, b < a →
      munmapGo fuel a b pt mf = some r → r.1 ≠ 0) := by
  refine ⟨?_, ?_, ?_, ?_, mmapGo_gt, munmapGo_gt⟩
  · intro flags a b pt mf mach hab
    obtain ⟨r, pt', mf', mach', heq, _⟩ := mmapGo_spec (b - a) flags a pt mf mach
    rw [show a + (b - a) = b from by omega] at heq
    rw [heq]
    rfl
  · intro a b pt mf hab
    obtain ⟨r, pt', mf', heq, _⟩ := munmapGo_spec (b - a) a pt mf
    rw [show a + (b - a) = b from by omega] at heq
    rw [heq]
    rfl
  · intro ms mach a port
    rw [MemorySet.mmap]
    simp only [Nat.sub_self]
    rw [show mmapGo 1 (mmapFlags port) a a ms.page_table ms.mmap_frames mach
      = some (0, ms.page_table, ms.mmap_frames, mach) from by rw [mmapGo, if_pos rfl]]
  · intro ms a
    rw [MemorySet.munmap]
    simp only [Nat.sub_self]
    rw [show munmapGo 1 a a ms.page_table ms.mmap_frames
      = some (0, ms.page_table, ms.mmap_frames) from by rw [munmapGo, if_pos rfl]]

/-! ## Claim C7: MapArea resizing -/

/-- Claim C7 (confirmed): growing a segment to `E' >= E` maps every new
page of `[E, E')` with the segment's original permission (plus valid bit)
and original mapping policy (`Identical`: the page itself; `Framed`: a
fresh owned frame recorded in `data_frames`), leaving other pages alone;
shrinking to `E'' <= E` unmaps every page of `[E'', E)`, drops the owned
frames of those pages, and afterwards their translation is absent. -/
theorem area_resize_spec :
    (∀ (ma : MapArea) (pt : PageTable) (mach : Mach) E',
      ma.vpn_end ≤ E' →
      ∀ ma' pt' mach', ma.append_to pt mach E' = some (ma', pt', mach') →
        ma'.vpn_start = ma.vpn_start ∧ ma'.vpn_end = E' ∧
        ma'.map_type = ma.map_type ∧ ma'.map_perm = ma.map_perm ∧
        (∀ v, ma.vpn_end ≤ v → v < E' →
          ∃ p, pt'.translate v = some ⟨p, ma.map_perm ||| 1⟩ ∧
            (ma.map_type = MapType.Identical → p = v) ∧
            (ma.map_type = MapType.Framed → ma'.data_frames v = some p)) ∧
        (∀ v, v < ma.vpn_end ∨ E' ≤ v → pt'.translate v = pt.translate v)) ∧
    (∀ (ma : MapArea) (pt : PageTable) E'',
      E'' ≤ ma.vpn_end →
      ((ma.shrink_to pt E'').1.vpn_start = ma.vpn_start ∧
       (ma.shrink_to pt E'').1.vpn_end = E'' ∧
       (ma.shrink_to pt E'').1.map_type = ma.map_type ∧
       (ma.shrink_to pt E'').1.map_perm = ma.map_perm ∧
       (∀ v, E'' ≤ v → v < ma.vpn_end →
         (ma.shrink_to pt E'').2.translate v = none ∧
         (ma.shrink_to pt E'').1.data_frames v =
           (if ma.map_type = MapType.Framed then none else ma.data_frames v)) ∧
       (∀ v, v < E'' ∨ ma.vpn_end ≤ v →
         (ma.shrink_to pt E'').2.translate v = pt.translate v))) := by
  constructor
  · intro ma pt mach E' hE ma' pt' mach' h
    rw [MapArea.append_to] at h
    rcases hml : mapLoop (vpnList ma.vpn_end E') ma pt mach with _ | ⟨ma₁, pt₁, mach₁⟩
    · rw [hml] at h
      exact Option.noConfusion h
    · rw [hml] at h
      simp only [Option.some.injEq, Prod.mk.injEq] at h
      obtain ⟨h1, h2, h3⟩ := h
      subst h2
      subst h3
      rcases hty : ma.map_type with _ | _
      · obtain ⟨c1, c2, c3, c4⟩ :=
          mapLoop_ident (E' - ma.vpn_end) ma.vpn_end ma pt mach ma₁ pt₁ mach₁ hty hml
        refine ⟨?_, ?_, ?_, ?_, ?_, ?_⟩
        · rw [← h1, c1]
        · rw [← h1]
        · rw [← h1, c1]
          exact hty
        · rw [← h1, c1]
        · intro v hv1 hv2
          refine ⟨v, ?_, fun _ => rfl, fun hf => MapType.noConfusion hf⟩
          have hvt := c3 (v - ma.vpn_end) (by omega)
          rw [show ma.vpn_end + (v - ma.vpn_end) = v from by omega] at hvt
          exact hvt
        · intro v hv
          exact c4 v (by omega)
      · obtain ⟨c1, c2, c3, c4, c5, c6, c7, c8⟩ :=
          mapLoop_framed (E' - ma.vpn_end) ma.vpn_end ma pt mach ma₁ pt₁ mach₁ hty hml
        refine ⟨?_, ?_, ?_, ?_, ?_, ?_⟩
        · rw [← h1]
          exact c5
        · rw [← h1]
        · rw [← h1]
          exact c3.trans hty
        · rw [← h1]
          exact c4
        · intro v hv1 hv2
          obtain ⟨t1, t2⟩ := c7 (v - ma.vpn_end) (by omega)
          rw [show ma.vpn_end + (v - ma.vpn_end) = v from by omega] at t1 t2
          refine ⟨mach.next + (v - ma.vpn_end), t1,
            fun hi => MapType.noConfusion hi, fun _ => ?_⟩
          rw [← h1]
          exact t2
        · intro v hv
          exact (c8 v (by omega)).1
  · intro ma pt E'' hE
    obtain ⟨⟨f1, f2, f3, f4⟩, hin, hout⟩ := unmapLoop_spec (ma.vpn_end - E'') E'' ma pt
    refine ⟨?_, rfl, ?_, ?_, ?_, ?_⟩
    · show (unmapLoop (vpnList E'' ma.vpn_end) ma pt).1.vpn_start = ma.vpn_start
      exact f3
    · show (unmapLoop (vpnList E'' ma.vpn_end) ma pt).1.map_type = ma.map_type
      exact f1
    · show (unmapLoop (vpnList E'' ma.vpn_end) ma pt).1.map_perm = ma.map_perm
      exact f2
    · intro v hv1 hv2
      exact hin v (by omega) (by omega)
    · intro v hv
      exact hout v (by omega) |>.1

/-! ## Claim C8: copy_data -/

/-- Claim C8 (confirmed): `copy_data` fails (panics) for a non-`Framed`
segment; for a `Framed` segment whose touched pages are mapped to pairwise
distinct frames of zeroed memory and whose data fits the segment, after the
copy the first `L` bytes read back through the mapped frames equal the
source exactly, and every byte beyond `L` within the touched pages is
zero. -/
theorem copy_data_spec :
    (∀ (ma : MapArea) (pt : PageTable) (mach : Mach) (data : List Nat),
      ma.map_type = MapType.Identical → ma.copy_data pt mach data = none) ∧
    (∀ (ma : MapArea) (pt : PageTable) (mach : Mach) (data : List Nat) (ppnOf : Nat → Nat),
      ma.map_type = MapType.Framed →
      touchedPages data.length ≤ ma.vpn_end - ma.vpn_start →
      (∀ j, j < touchedPages data.length →
        (pt.translate (ma.vpn_start + j)).map PTE.ppn = some (ppnOf j)) →
      (∀ i j, i < touchedPages data.length → j < touchedPages data.length → i ≠ j →
        ppnOf i ≠ ppnOf j) →
      (∀ j, j < touchedPages data.length → ∀ o, o < PAGE_SIZE → mach.mem (ppnOf j) o = 0) →
      ∃ mach', ma.copy_data pt mach data = some mach' ∧
        (∀ i, i < data.length →
          mach'.mem (ppnOf (i / PAGE_SIZE)) (i % PAGE_SIZE) = data.getD i 0) ∧
        (∀ i, data.length ≤ i → i < touchedPages data.length * PAGE_SIZE →
          mach'.mem (ppnOf (i / PAGE_SIZE)) (i % PAGE_SIZE) = 0)) := by
  constructor
  · intro ma pt mach data hty
    rw [MapArea.copy_data, if_neg (by rw [hty]; simp)]
  · intro ma pt mach data ppnOf hty hfit hmap hdis hzero
    have hT1 : 1 ≤ touchedPages data.length := by
      simp only [touchedPages]
      omega
    have hTle : data.length ≤ touchedPages data.length * PAGE_SIZE := by
      simp only [touchedPages, PAGE_SIZE] at *
      omega
    obtain ⟨mach', heq, hnext, hlim, hin, hout⟩ :=
      copyGo_spec (data.length / PAGE_SIZE + 1) 0 ma.vpn_start pt mach data ppnOf
        (by omega)
        (by simp only [touchedPages, PAGE_SIZE] at *; omega)
        (fun j hj1 hj2 => by simpa using hmap j hj2)
        (fun i j h1 h2 h3 h4 h5 => hdis i j h2 h4 h5)
    rw [Nat.zero_mul] at heq
    refine ⟨mach', ?_, ?_, ?_⟩
    · rw [MapArea.copy_data, if_pos hty]
      exact heq
    · intro i hi
      have hdm : i / PAGE_SIZE * PAGE_SIZE + i % PAGE_SIZE = i := by
        simp only [PAGE_SIZE]
        omega
      have hj : i / PAGE_SIZE < touchedPages data.length := by
        simp only [PAGE_SIZE] at hTle ⊢
        omega
      have hmm := hin (i / PAGE_SIZE) (Nat.zero_le _) hj (i % PAGE_SIZE)
      rw [if_pos ⟨by simp only [PAGE_SIZE]; omega, by rw [hdm]; exact hi⟩] at hmm
      rw [hmm, hdm]
    · intro i hi1 hi2
      have hdm : i / PAGE_SIZE * PAGE_SIZE + i % PAGE_SIZE = i := by
        simp only [PAGE_SIZE]
        omega
      have hj : i / PAGE_SIZE < touchedPages data.length := by
        simp only [PAGE_SIZE] at hi2 ⊢
        omega
      have hmm := hin (i / PAGE_SIZE) (Nat.zero_le _) hj (i % PAGE_SIZE)
      rw [if_neg (fun hc => by rw [hdm] at hc; omega)] at hmm
      rw [hmm]
      exact hzero (i / PAGE_SIZE) hj (i % PAGE_SIZE) (by simp only [PAGE_SIZE]; omega)

/-! ## Claim C1: from_elf user-stack placement -/

/-- Claim C1, counterexample: `exImg` is accepted by `from_elf`, its highest
loadable end page is 12, but `max_end_vpn` tracks the *last* loadable
header, which ends at page 4: the user stack begins at page 5 (one above
the last header's end), and page 13 — where the claim places the stack —
has no translation at all. -/
theorem from_elf_stack_cex :
    (from_elf exImg exMach).isSome = true ∧
    specHighestLoadEnd exImg.phs = 12 ∧
    lastLoadEnd exImg.phs = 4 ∧
    ((from_elf exImg exMach).map fun r => r.2.1)
      = some ((4 + 1) * PAGE_SIZE + USER_STACK_SIZE) ∧
    ((from_elf exImg exMach).map fun r => r.1.translate (12 + 1)) = some none ∧
    (4 + 1 : Nat) ≠ 12 + 1 :=
  ⟨rfl, by decide, by decide, rfl, rfl, by omega⟩

/-- Claim C1 (corrected): for every accepted image, the user stack bottom is
placed one guard page above the ending page of the *last* loadable program
header (`max_end_vpn` is overwritten, not maximised); the guard page is left
unmapped provided no loadable header covers it; and a `Framed` segment of
`USER_STACK_SIZE` bytes with `R|W|U` permission begins immediately above the
guard.  (`hsmall` keeps the user pages clear of the trap-context and
trampoline pages, as any realistic image is.) -/
theorem from_elf_stack (e : ElfInput) (mach : Mach)
    (hsucc : (from_elf e mach).isSome = true)
    (hsmall : lastLoadEnd e.phs < 2 ^ 40)
    (hguard : ∀ ph, ph ∈ e.phs → ph.isLoad = true →
      lastLoadEnd e.phs < vaFloor ph.vaddr ∨ phEndVpn ph ≤ lastLoadEnd e.phs) :
    ∀ ms sp ep mach', from_elf e mach = some (ms, sp, ep, mach') →
      sp = (lastLoadEnd e.phs + 1) * PAGE_SIZE + USER_STACK_SIZE ∧
      ms.translate (lastLoadEnd e.phs) = none ∧
      (∀ j, j < USER_STACK_SIZE / PAGE_SIZE →
        (ms.translate (lastLoadEnd e.phs + 1 + j)).map PTE.flags = some 23) ∧
      (∃ a, a ∈ ms.areas ∧ a.vpn_start = lastLoadEnd e.phs + 1 ∧
        a.vpn_end = lastLoadEnd e.phs + 1 + USER_STACK_SIZE / PAGE_SIZE ∧
        a.map_type = MapType.Framed ∧ a.map_perm = 22) := by
  intro ms sp ep mach' hfe
  simp only [from_elf] at hfe
  by_cases hmagic : e.magic = [0x7f, 0x45, 0x4c, 0x46]
  case neg =>
    rw [if_neg hmagic] at hfe
    exact Option.noConfusion hfe
  case pos =>
    rw [if_pos hmagic] at hfe
    simp only [Option.bind_eq_some] at hfe
    obtain ⟨⟨ms₁, mach₁, maxEnd⟩, hload, ⟨ms₂, mach₂⟩, hpush2, ⟨ms₃, mach₃⟩, hpush3,
      ⟨ms₄, mach₄⟩, hpush4, hfin⟩ := hfe
    dsimp only at hload hpush2 hpush3 hpush4 hfin
    simp only [Option.some.injEq, Prod.mk.injEq] at hfin
    obtain ⟨hms, hsp, hep, hmach⟩ := hfin
    have hmax : maxEnd = lastLoadEnd e.phs :=
      loadLoop_maxEnd e.phs e.input _ mach 0 ms₁ mach₁ maxEnd hload
    have hsmall' : maxEnd < 1099511627776 := by
      rw [hmax]
      have : (2 : Nat) ^ 40 = 1099511627776 := by norm_num
      omega
    have hsas : vaFloor (maxEnd * PAGE_SIZE + PAGE_SIZE) = maxEnd + 1 := by
      simp only [vaFloor, PAGE_SIZE]
      omega
    have hsae : vaCeil (maxEnd * PAGE_SIZE + PAGE_SIZE + USER_STACK_SIZE)
        = maxEnd + 3 := by
      simp only [vaCeil, PAGE_SIZE, USER_STACK_SIZE]
      omega
    have hsbf : vaFloor (maxEnd * PAGE_SIZE + PAGE_SIZE + USER_STACK_SIZE)
        = maxEnd + 3 := by
      simp only [vaFloor, PAGE_SIZE, USER_STACK_SIZE]
      omega
    have hus : USER_STACK_SIZE / PAGE_SIZE = 2 := by
      norm_num [USER_STACK_SIZE, PAGE_SIZE]
    have hTCV : vaFloor TRAP_CONTEXT_BASE = 4503599627370494 := by decide
    have hTRV : vaCeil TRAMPOLINE = 4503599627370495 := by decide
    have hTRP : TRAMPOLINE / PAGE_SIZE = 4503599627370495 := by decide
    -- the three pushes after the loader, characterized
    obtain ⟨hm2, hu2, hf2, a2, ha2, ha2t, ha2p, ha2s, ha2e⟩ :=
      push_framed ms₁ mach₁ _ none ms₂ mach₂ rfl hpush2
    obtain ⟨hm3, hu3, hf3, a3, ha3, _, _, _, _⟩ :=
      push_framed ms₂ mach₂ _ none ms₃ mach₃ rfl hpush3
    obtain ⟨hm4, hu4, hf4, a4, ha4, _, _, _, _⟩ :=
      push_framed ms₃ mach₃ _ none ms₄ mach₄ rfl hpush4
    simp only [MapArea.new, hsas, hsae, hsbf, hTCV, hTRV] at hm2 hu2 hu3 hu4 ha2s ha2e
    refine ⟨?_, ?_, ?_, ?_⟩
    · rw [← hsp, hmax]
      ring
    · rw [← hms, ← hmax]
      show ms₄.page_table.translate maxEnd = none
      rw [hu4 maxEnd (by omega), hu3 maxEnd (by omega), hu2 maxEnd (by omega)]
      have hbase := loadLoop_untouched e.phs e.input _ mach 0 ms₁ mach₁ maxEnd
        maxEnd hload (fun ph hm hl => by rw [hmax]; exact hguard ph hm hl)
      rw [hbase.1]
      show (PageTable.new.map (TRAMPOLINE / PAGE_SIZE) (strampoline / PAGE_SIZE)
        10).translate maxEnd = none
      rw [PageTable.translate_map, if_neg (by rw [hTRP]; omega)]
      rfl
    · intro j hj
      rw [hus] at hj
      rw [← hms, ← hmax]
      show (ms₄.page_table.translate (maxEnd + 1 + j)).map PTE.flags = some 23
      rw [hu4 (maxEnd + 1 + j) (by omega), hu3 (maxEnd + 1 + j) (by omega)]
      have := hm2 j (by omega)
      rw [show maxEnd + 1 + j = maxEnd + 1 + j from rfl] at this
      rw [this]
      rfl
    · refine ⟨a2, ?_, ?_, ?_, ha2t, ha2p⟩
      · rw [← hms, ha4, ha3]
        simp [ha2]
      · rw [ha2s, hmax]
      · rw [ha2e, hmax, hus]

/-- Witness for `from_elf_stack` on the example image `exImg`. -/
theorem from_elf_stack_witness :
    (from_elf exImg exMach).isSome = true ∧
    lastLoadEnd exImg.phs < 2 ^ 40 ∧
    (∀ ph, ph ∈ exImg.phs → ph.isLoad = true →
      lastLoadEnd exImg.phs < vaFloor ph.vaddr ∨ phEndVpn ph ≤ lastLoadEnd exImg.phs) ∧
    (∀ ms sp ep mach', from_elf exImg exMach = some (ms, sp, ep, mach') →
      sp = (lastLoadEnd exImg.phs + 1) * PAGE_SIZE + USER_STACK_SIZE ∧
      ms.translate (lastLoadEnd exImg.phs) = none ∧
      (∀ j, j < USER_STACK_SIZE / PAGE_SIZE →
        (ms.translate (lastLoadEnd exImg.phs + 1 + j)).map PTE.flags = some 23) ∧
      (∃ a, a ∈ ms.areas ∧ a.vpn_start = lastLoadEnd exImg.phs + 1 ∧
        a.vpn_end = lastLoadEnd exImg.phs + 1 + USER_STACK_SIZE / PAGE_SIZE ∧
        a.map_type = MapType.Framed ∧ a.map_perm = 22)) :=
  ⟨rfl, by decide, by decide, from_elf_stack exImg exMach rfl (by decide) (by decide)⟩

/-- Witness for `area_resize_spec`: growing a one-page `Framed` area from
end 2 to end 3, and shrinking a two-page `Framed` area from end 3 to end 1,
at concrete inputs. -/
theorem area_resize_spec_witness :
    ((MapArea.new (1 * PAGE_SIZE) (2 * PAGE_SIZE) MapType.Framed 6).vpn_end ≤ 3 ∧
     (∀ ma' pt' mach',
       (MapArea.new (1 * PAGE_SIZE) (2 * PAGE_SIZE) MapType.Framed 6).append_to
           PageTable.new exMach 3 = some (ma', pt', mach') →
       ma'.vpn_start = (MapArea.new (1 * PAGE_SIZE) (2 * PAGE_SIZE) MapType.Framed 6).vpn_start ∧
       ma'.vpn_end = 3 ∧
       ma'.map_type = (MapArea.new (1 * PAGE_SIZE) (2 * PAGE_SIZE) MapType.Framed 6).map_type ∧
       ma'.map_perm = (MapArea.new (1 * PAGE_SIZE) (2 * PAGE_SIZE) MapType.Framed 6).map_perm ∧
       (∀ v, (MapArea.new (1 * PAGE_SIZE) (2 * PAGE_SIZE) MapType.Framed 6).vpn_end ≤ v →
         v < 3 →
         ∃ p, pt'.translate v = some
             ⟨p, (MapArea.new (1 * PAGE_SIZE) (2 * PAGE_SIZE) MapType.Framed 6).map_perm ||| 1⟩ ∧
           ((MapArea.new (1 * PAGE_SIZE) (2 * PAGE_SIZE) MapType.Framed 6).map_type
             = MapType.Identical → p = v) ∧
           ((MapArea.new (1 * PAGE_SIZE) (2 * PAGE_SIZE) MapType.Framed 6).map_type
             = MapType.Framed → ma'.data_frames v = some p)) ∧
       (∀ v, v < (MapArea.new (1 * PAGE_SIZE) (2 * PAGE_SIZE) MapType.Framed 6).vpn_end ∨
         3 ≤ v → pt'.translate v = PageTable.new.translate v))) ∧
    ((1 : Nat) ≤ (MapArea.new (1 * PAGE_SIZE) (3 * PAGE_SIZE) MapType.Framed 6).vpn_end ∧
     (((MapArea.new (1 * PAGE_SIZE) (3 * PAGE_SIZE) MapType.Framed 6).shrink_to
         PageTable.new 1).1.vpn_start
       = (MapArea.new (1 * PAGE_SIZE) (3 * PAGE_SIZE) MapType.Framed 6).vpn_start ∧
      ((MapArea.new (1 * PAGE_SIZE) (3 * PAGE_SIZE) MapType.Framed 6).shrink_to
         PageTable.new 1).1.vpn_end = 1 ∧
      ((MapArea.new (1 * PAGE_SIZE) (3 * PAGE_SIZE) MapType.Framed 6).shrink_to
         PageTable.new 1).1.map_type
       = (MapArea.new (1 * PAGE_SIZE) (3 * PAGE_SIZE) MapType.Framed 6).map_type ∧
      ((MapArea.new (1 * PAGE_SIZE) (3 * PAGE_SIZE) MapType.Framed 6).shrink_to
         PageTable.new 1).1.map_perm
       = (MapArea.new (1 * PAGE_SIZE) (3 * PAGE_SIZE) MapType.Framed 6).map_perm ∧
      (∀ v, 1 ≤ v →
        v < (MapArea.new (1 * PAGE_SIZE) (3 * PAGE_SIZE) MapType.Framed 6).vpn_end →
        ((MapArea.new (1 * PAGE_SIZE) (3 * PAGE_SIZE) MapType.Framed 6).shrink_to
           PageTable.new 1).2.translate v = none ∧
        ((MapArea.new (1 * PAGE_SIZE) (3 * PAGE_SIZE) MapType.Framed 6).shrink_to
           PageTable.new 1).1.data_frames v =
          (if (MapArea.new (1 * PAGE_SIZE) (3 * PAGE_SIZE) MapType.Framed 6).map_type
              = MapType.Framed then none
           else (MapArea.new (1 * PAGE_SIZE) (3 * PAGE_SIZE) MapType.Framed 6).data_frames v)) ∧
      (∀ v, v < 1 ∨ (MapArea.new (1 * PAGE_SIZE) (3 * PAGE_SIZE) MapType.Framed 6).vpn_end ≤ v →
        ((MapArea.new (1 * PAGE_SIZE) (3 * PAGE_SIZE) MapType.Framed 6).shrink_to
           PageTable.new 1).2.translate v = PageTable.new.translate v))) :=
  ⟨⟨by decide, area_resize_spec.1 (MapArea.new (1 * PAGE_SIZE) (2 * PAGE_SIZE) MapType.Framed 6)
      PageTable.new exMach 3 (by decide)⟩,
   ⟨by decide, area_resize_spec.2 (MapArea.new (1 * PAGE_SIZE) (3 * PAGE_SIZE) MapType.Framed 6)
      PageTable.new 1 (by decide)⟩⟩

/-- Witness for `copy_data_spec`: the `Identical` failure at a concrete
area, and a concrete three-byte copy into a mapped, zeroed frame. -/
theorem copy_data_spec_witness :
    ((MapArea.new 0 (2 * PAGE_SIZE) MapType.Identical 6).copy_data PageTable.new exMach [1, 2]
      = none) ∧
    ((MapArea.new 0 (2 * PAGE_SIZE) MapType.Framed 22).map_type = MapType.Framed ∧
     touchedPages ([1, 2, 3] : List Nat).length ≤
       (MapArea.new 0 (2 * PAGE_SIZE) MapType.Framed 22).vpn_end -
       (MapArea.new 0 (2 * PAGE_SIZE) MapType.Framed 22).vpn_start ∧
     (∀ j, j < touchedPages ([1, 2, 3] : List Nat).length →
       (((PageTable.new.map 0 7 22)).translate
           ((MapArea.new 0 (2 * PAGE_SIZE) MapType.Framed 22).vpn_start + j)).map PTE.ppn
         = some 7) ∧
     (∃ mach', (MapArea.new 0 (2 * PAGE_SIZE) MapType.Framed 22).copy_data
         (PageTable.new.map 0 7 22) exMach [1, 2, 3] = some mach' ∧
       (∀ i, i < ([1, 2, 3] : List Nat).length →
         mach'.mem 7 (i % PAGE_SIZE) = ([1, 2, 3] : List Nat).getD i 0) ∧
       (∀ i, ([1, 2, 3] : List Nat).length ≤ i →
         i < touchedPages ([1, 2, 3] : List Nat).length * PAGE_SIZE →
         mach'.mem 7 (i % PAGE_SIZE) = 0))) :=
  ⟨copy_data_spec.1 (MapArea.new 0 (2 * PAGE_SIZE) MapType.Identical 6) PageTable.new exMach
      [1, 2] rfl,
   rfl, by decide, by decide,
   copy_data_spec.2 (MapArea.new 0 (2 * PAGE_SIZE) MapType.Framed 22)
     (PageTable.new.map 0 7 22) exMach [1, 2, 3] (fun _ => 7) rfl (by decide) (by decide)
     (fun i j hi hj hne => by
       have hT : touchedPages ([1, 2, 3] : List Nat).length = 1 := by decide
       exact absurd (by omega : i = j) hne)
     (fun j hj o ho => rfl)⟩
